import Mathlib

/-!
# Intrusive reference counting: `RefCounted` and `IntrusivePtr` (src/main.cpp)

A shallow embedding of the reference-counting core of `src/main.cpp`.

* Addresses are natural numbers, `0` is `nullptr`.
* The heap maps an address to the counted object stored there.  An object
  records whether it is alive (constructed and not yet deleted), the value of
  its `refCount_` member, and a ghost counter of how many times `delete` ran
  on it.
* `refCount_` is a `std::atomic<std::size_t>`: its arithmetic is modulo
  `2 ^ width`, where `width` is the bit width of `std::size_t` on the target.
* `assert` is active or compiled out (`NDEBUG`), selected by `Cfg.asserts`.
* Handles (`IntrusivePtr` objects) are themselves objects in memory: the
  handle store maps the address of a live handle to the value of its `ptr_`.
* Touching a deleted object, or a handle that is not alive, is undefined
  behaviour in C++ and is reported as `Fault.undefinedBehaviour`; a failed
  `assert` is reported as `Fault.assertion`.
-/

namespace IntrusiveRc

/-- Machine addresses; `0` is the null pointer. -/
abbrev Addr := Nat

/-- The null pointer. -/
abbrev nullptr : Addr := 0

/-- Build parameters: the bit width of `std::size_t` and whether `assert` is compiled in. -/
structure Cfg where
  width : Nat
  asserts : Bool
deriving DecidableEq, Repr

/-- Abnormal outcomes of an operation. -/
inductive Fault where
  | assertion
  | undefinedBehaviour
deriving DecidableEq, Repr

/-- A counted object (a class deriving from `RefCounted<Derived>`). -/
structure Obj where
  /-- The object has been constructed and not deleted. -/
  alive : Bool
  /-- The member `refCount_`. -/
  refCount : Nat
  /-- Ghost: number of times `delete` was executed on this object. -/
  deletes : Nat
deriving DecidableEq, Repr

/-- The heap of counted objects. -/
abbrev Heap := Addr → Obj

/-- `RefCounted()`, `RefCounted(RefCounted const&)`, `RefCounted(RefCounted&&)`:
all three initialise `refCount_(0)`; the argument of the copy and move constructors is unused. -/
def RefCounted.ctor : Obj := { alive := true, refCount := 0, deletes := 0 }

/-- `RefCounted::getRefCount`: `refCount_.load()`. -/
def RefCounted.getRefCount (o : Obj) : Nat := o.refCount

/-- `RefCounted::operator=` (copy and move): `return *this;`, the source is ignored. -/
def RefCounted.assign (self _rhs : Obj) : Obj := self

/-- `RefCounted(RefCounted const&)`: `refCount_(0)`, the source is not read.
Yields the new object and the source as it is afterwards. -/
def RefCounted.copyCtor (other : Obj) : Obj × Obj :=
  ({ alive := true, refCount := 0, deletes := 0 }, other)

/-- `RefCounted(RefCounted&&)`: `refCount_(0)`, the source is not read.
Yields the new object and the source as it is afterwards. -/
def RefCounted.moveCtor (other : Obj) : Obj × Obj :=
  ({ alive := true, refCount := 0, deletes := 0 }, other)

/-- `RefCounted::operator=(RefCounted const&)`: `return *this;`.
Yields the target and the source as they are afterwards. -/
def RefCounted.copyAssign (self rhs : Obj) : Obj × Obj := (self, rhs)

/-- `RefCounted::operator=(RefCounted&&)`: `return *this;`.
Yields the target and the source as they are afterwards. -/
def RefCounted.moveAssign (self rhs : Obj) : Obj × Obj := (self, rhs)

/-- The friend function `intrusivePtrRetain`:
`if (nullptr != ptr) { refCount_.fetch_add(1); }`. -/
def intrusivePtrRetain (c : Cfg) (ptr : Addr) (h : Heap) : Except Fault Heap :=
  if ptr ≠ nullptr then
    if (h ptr).alive then
      .ok (Function.update h ptr
        { h ptr with refCount := ((h ptr).refCount + 1) % 2 ^ c.width })
    else .error .undefinedBehaviour
  else .ok h

/-- The friend function `intrusivePtrRelease`:
`if (nullptr != ptr) { old = refCount_.fetch_sub(1); assert(0 < old); if (1 == old) delete ptr; }`. -/
def intrusivePtrRelease (c : Cfg) (ptr : Addr) (h : Heap) : Except Fault Heap :=
  if ptr ≠ nullptr then
    if (h ptr).alive then
      let oldRefCount := (h ptr).refCount
      let h1 := Function.update h ptr
        { h ptr with refCount := (oldRefCount + 2 ^ c.width - 1) % 2 ^ c.width }
      if c.asserts = true ∧ ¬ (0 < oldRefCount) then .error .assertion
      else if 1 = oldRefCount then
        .ok (Function.update h1 ptr
          { h1 ptr with alive := false, deletes := (h1 ptr).deletes + 1 })
      else .ok h1
    else .error .undefinedBehaviour
  else .ok h

/-- Program state: the heap of counted objects and the store of live handles
(address of the handle ↦ its `ptr_`; `none` where no handle is alive). -/
structure State where
  heap : Heap
  handles : Addr → Option Addr

/-- Read `this->ptr_`. -/
def State.load (s : State) (this : Addr) : Except Fault Addr :=
  match s.handles this with
  | some p => .ok p
  | none => .error .undefinedBehaviour

/-- Write `this->ptr_ = p` (also used for the member initialiser `ptr_(p)`). -/
def State.store (s : State) (this p : Addr) : State :=
  { s with handles := Function.update s.handles this (some p) }

namespace IntrusivePtr

/-- `IntrusivePtr()`: `ptr_(nullptr)`. -/
def ctorEmpty (this : Addr) (s : State) : Except Fault State :=
  .ok (s.store this nullptr)

/-- `IntrusivePtr(Element* ptr, bool addRef = true)`:
`ptr_(ptr)`, then `if (addRef) intrusivePtrRetain(this->ptr_);`. -/
def ctor (c : Cfg) (this ptr : Addr) (addRef : Bool) (s : State) : Except Fault State :=
  let s1 := s.store this ptr
  if addRef then do
    let p ← s1.load this
    let h ← intrusivePtrRetain c p s1.heap
    pure { s1 with heap := h }
  else .ok s1

/-- `IntrusivePtr(IntrusivePtr const& other)`:
`ptr_(other.ptr_)`, then `intrusivePtrRetain(this->ptr_);`. -/
def copyCtor (c : Cfg) (this other : Addr) (s : State) : Except Fault State := do
  let q ← s.load other
  let s1 := s.store this q
  let p ← s1.load this
  let h ← intrusivePtrRetain c p s1.heap
  pure { s1 with heap := h }

/-- `detach()`: `result = ptr_; ptr_ = nullptr; return result;`. -/
def detach (this : Addr) (s : State) : Except Fault (Addr × State) := do
  let result ← s.load this
  pure (result, s.store this nullptr)

/-- `IntrusivePtr(IntrusivePtr&& other)`: `ptr_(other.detach())`. -/
def moveCtor (this other : Addr) (s : State) : Except Fault State := do
  let r ← detach other s
  pure (r.2.store this r.1)

/-- `~IntrusivePtr()`: `intrusivePtrRelease(this->ptr_);`, after which the handle is gone. -/
def dtor (c : Cfg) (this : Addr) (s : State) : Except Fault State := do
  let p ← s.load this
  let h ← intrusivePtrRelease c p s.heap
  pure { heap := h, handles := Function.update s.handles this none }

/-- `reset()`: `intrusivePtrRelease(this->ptr_); this->ptr_ = nullptr;`. -/
def reset (c : Cfg) (this : Addr) (s : State) : Except Fault State := do
  let p ← s.load this
  let h ← intrusivePtrRelease c p s.heap
  pure ({ s with heap := h }.store this nullptr)

/-- `reset(Element* ptr, bool addRef = true)`:
`if (addRef) intrusivePtrRetain(ptr); intrusivePtrRelease(this->ptr_); this->ptr_ = ptr;`. -/
def resetTo (c : Cfg) (this ptr : Addr) (addRef : Bool) (s : State) : Except Fault State := do
  let h1 ← if addRef then intrusivePtrRetain c ptr s.heap else pure s.heap
  let q ← s.load this
  let h2 ← intrusivePtrRelease c q h1
  pure ({ s with heap := h2 }.store this ptr)

/-- `operator=(IntrusivePtr const& rhs)`: `this->reset(rhs.ptr_);`. -/
def assign (c : Cfg) (this rhs : Addr) (s : State) : Except Fault State := do
  let p ← s.load rhs
  resetTo c this p true s

/-- `operator=(IntrusivePtr&& rhs)`: `this->reset(rhs.detach(), false);`. -/
def assignMove (c : Cfg) (this rhs : Addr) (s : State) : Except Fault State := do
  let r ← detach rhs s
  resetTo c this r.1 false r.2

/-- `operator=(Element* rhs)`: `this->reset(rhs);`. -/
def assignRaw (c : Cfg) (this rhs : Addr) (s : State) : Except Fault State :=
  resetTo c this rhs true s

/-- `get()`: `return this->ptr_;`. -/
def get (this : Addr) (s : State) : Except Fault Addr :=
  s.load this

/-- `operator*()`: `assert(nullptr != this->ptr_); return *this->ptr_;`.
Yields the address of the referenced object. -/
def deref (c : Cfg) (this : Addr) (s : State) : Except Fault Addr := do
  let p ← s.load this
  if c.asserts = true ∧ ¬ (nullptr ≠ p) then .error .assertion
  else if p = nullptr ∨ (s.heap p).alive = false then .error .undefinedBehaviour
  else pure p

/-- `operator->()`: `return this->ptr_;`. -/
def arrow (this : Addr) (s : State) : Except Fault Addr :=
  s.load this

/-- `explicit operator bool()`: `return nullptr != this->ptr_;`. -/
def toBool (this : Addr) (s : State) : Except Fault Bool := do
  let p ← s.load this
  pure (decide (nullptr ≠ p))

/-- `operator IntrusivePtr<U>() const&`: `return IntrusivePtr<U>(this->ptr_);`.
The result is the handle constructed at `ret`. -/
def convert (c : Cfg) (ret this : Addr) (s : State) : Except Fault State := do
  let p ← s.load this
  ctor c ret p true s

/-- `operator IntrusivePtr<U>() &&`: `return IntrusivePtr<U>(this->detach(), false);`. -/
def convertMove (c : Cfg) (ret this : Addr) (s : State) : Except Fault State := do
  let r ← detach this s
  ctor c ret r.1 false r.2

/-- `swap(IntrusivePtr& other)`: `std::swap(this->ptr_, other.ptr_);`. -/
def swap (this other : Addr) (s : State) : Except Fault State := do
  let a ← s.load this
  let b ← s.load other
  pure ((s.store this b).store other a)

/-- `operator==(IntrusivePtr const& rhs)`: `this->ptr_ == rhs.ptr_`. -/
def eq (this rhs : Addr) (s : State) : Except Fault Bool := do
  let a ← s.load this
  let b ← s.load rhs
  pure (decide (a = b))

/-- `operator<(IntrusivePtr const& rhs)`: `this->ptr_ < rhs.ptr_`. -/
def lt (this rhs : Addr) (s : State) : Except Fault Bool := do
  let a ← s.load this
  let b ← s.load rhs
  pure (decide (a < b))

/-- `operator==(void const* rhs)`: `this->ptr_ == rhs`. -/
def eqRaw (this rhs : Addr) (s : State) : Except Fault Bool := do
  let a ← s.load this
  pure (decide (a = rhs))

/-- `operator<(void const* rhs)`: `this->ptr_ < rhs`. -/
def ltRaw (this rhs : Addr) (s : State) : Except Fault Bool := do
  let a ← s.load this
  pure (decide (a < rhs))

/-- `operator>(void const* rhs)`: `this->ptr_ > rhs`. -/
def gtRaw (this rhs : Addr) (s : State) : Except Fault Bool := do
  let a ← s.load this
  pure (decide (a > rhs))

end IntrusivePtr

/-- `staticCast<U>(IntrusivePtr<T> const& iptr)`:
`return IntrusivePtr<U>(static_cast<U*>(iptr.get()));`.
The pointer casts keep the address (single, non-virtual inheritance as in `Foo`/`Bar`). -/
def staticCast (c : Cfg) (ret iptr : Addr) (s : State) : Except Fault State := do
  let p ← IntrusivePtr.get iptr s
  IntrusivePtr.ctor c ret p true s

/-- `staticCast<U>(IntrusivePtr<T>&& iptr)`:
`return IntrusivePtr<U>(static_cast<U*>(iptr.detach()), false);`. -/
def staticCastMove (c : Cfg) (ret iptr : Addr) (s : State) : Except Fault State := do
  let r ← IntrusivePtr.detach iptr s
  IntrusivePtr.ctor c ret r.1 false r.2

/-- `constCast<U>(IntrusivePtr<T> const& iptr)`:
`return IntrusivePtr<U>(const_cast<U*>(iptr.get()));`. -/
def constCast (c : Cfg) (ret iptr : Addr) (s : State) : Except Fault State := do
  let p ← IntrusivePtr.get iptr s
  IntrusivePtr.ctor c ret p true s

/-- `constCast<U>(IntrusivePtr<T>&& iptr)`:
`return IntrusivePtr<U>(const_cast<U*>(iptr->detach()), false);`.
Here `iptr->detach()` is `iptr.operator->()->detach()`: `operator->` yields the pointee and
`detach` is looked up in the element type `T`, not in `IntrusivePtr<T>`.  The element types of
the repository (`Foo`, `Bar`) declare no member `detach`, so that member is a parameter:
`elemDetach p s` is the outcome of calling `T::detach()` on the object at `p`.  The member call
through a null or dangling pointer is undefined behaviour. -/
def constCastMove (c : Cfg) (elemDetach : Addr → State → Except Fault (Addr × State))
    (ret iptr : Addr) (s : State) : Except Fault State := do
  let p ← IntrusivePtr.arrow iptr s
  if p = nullptr ∨ (s.heap p).alive = false then .error .undefinedBehaviour
  else do
    let r ← elemDetach p s
    IntrusivePtr.ctor c ret r.1 false r.2

/-- `reinterpretCast<U>(IntrusivePtr<T> const& iptr)`:
`return IntrusivePtr<U>(reinterpret_cast<U*>(iptr.get()));`. -/
def reinterpretCast (c : Cfg) (ret iptr : Addr) (s : State) : Except Fault State := do
  let p ← IntrusivePtr.get iptr s
  IntrusivePtr.ctor c ret p true s

/-- `reinterpretCast<U>(IntrusivePtr<T>&& iptr)`:
`return IntrusivePtr<U>(reinterpret_cast<U*>(iptr.detach()), false);`. -/
def reinterpretCastMove (c : Cfg) (ret iptr : Addr) (s : State) : Except Fault State := do
  let r ← IntrusivePtr.detach iptr s
  IntrusivePtr.ctor c ret r.1 false r.2

/-! ## Vocabulary for the effect of one retain or one release on an object -/

/-- The object at `p` in `h2` is the object at `p` in `h` after one `fetch_add(1)`: its count is
`(n + 1) mod 2 ^ width` (so `n + 1` when that fits), and it was neither deleted nor revived. -/
def Retained (c : Cfg) (h h2 : Heap) (p : Addr) : Prop :=
  (h2 p).refCount = ((h p).refCount + 1) % 2 ^ c.width ∧
  ((h p).refCount + 1 < 2 ^ c.width → (h2 p).refCount = (h p).refCount + 1) ∧
  (h2 p).alive = (h p).alive ∧
  (h2 p).deletes = (h p).deletes

/-- The object at `q` in `h2` is the object at `q` in `h` after giving up one reference: its
count went down by one, and it was deleted (once) exactly when the count was `1`. -/
def Released (h h2 : Heap) (q : Addr) : Prop :=
  (h2 q).refCount = (h q).refCount - 1 ∧
  ((h2 q).alive = false ↔ (h q).refCount = 1) ∧
  ((h2 q).alive = true ↔ (h q).refCount ≠ 1) ∧
  (h2 q).deletes = (h q).deletes + (if (h q).refCount = 1 then 1 else 0)

/-! ## Programs: sequences of handle operations -/

/-- The operations a program can perform on handles.  The address arguments named `this`,
`other`, `rhs`, `ret`, `iptr` are addresses of handles; `ptr` is a raw object address. -/
inductive Op where
  | ctorEmpty (this : Addr)
  | ctor (this ptr : Addr) (addRef : Bool)
  | copyCtor (this other : Addr)
  | moveCtor (this other : Addr)
  | dtor (this : Addr)
  | assign (this rhs : Addr)
  | assignMove (this rhs : Addr)
  | assignRaw (this ptr : Addr)
  | reset (this : Addr)
  | resetTo (this ptr : Addr) (addRef : Bool)
  | detach (this : Addr)
  | swap (this other : Addr)
  | convert (ret this : Addr)
  | convertMove (ret this : Addr)
  | staticCast (ret iptr : Addr)
  | staticCastMove (ret iptr : Addr)
  | constCast (ret iptr : Addr)
  | reinterpretCast (ret iptr : Addr)
  | reinterpretCastMove (ret iptr : Addr)
deriving DecidableEq, Repr

/-- Execute one operation (the address returned by `detach` is dropped). -/
def step (c : Cfg) : Op → State → Except Fault State
  | .ctorEmpty this, s => IntrusivePtr.ctorEmpty this s
  | .ctor this ptr addRef, s => IntrusivePtr.ctor c this ptr addRef s
  | .copyCtor this other, s => IntrusivePtr.copyCtor c this other s
  | .moveCtor this other, s => IntrusivePtr.moveCtor this other s
  | .dtor this, s => IntrusivePtr.dtor c this s
  | .assign this rhs, s => IntrusivePtr.assign c this rhs s
  | .assignMove this rhs, s => IntrusivePtr.assignMove c this rhs s
  | .assignRaw this ptr, s => IntrusivePtr.assignRaw c this ptr s
  | .reset this, s => IntrusivePtr.reset c this s
  | .resetTo this ptr addRef, s => IntrusivePtr.resetTo c this ptr addRef s
  | .detach this, s => (IntrusivePtr.detach this s).map Prod.snd
  | .swap this other, s => IntrusivePtr.swap this other s
  | .convert ret this, s => IntrusivePtr.convert c ret this s
  | .convertMove ret this, s => IntrusivePtr.convertMove c ret this s
  | .staticCast ret iptr, s => staticCast c ret iptr s
  | .staticCastMove ret iptr, s => staticCastMove c ret iptr s
  | .constCast ret iptr, s => constCast c ret iptr s
  | .reinterpretCast ret iptr, s => reinterpretCast c ret iptr s
  | .reinterpretCastMove ret iptr, s => reinterpretCastMove c ret iptr s

/-- Execute a sequence of operations, stopping at the first fault. -/
def run (c : Cfg) : List Op → State → Except Fault State
  | [], s => .ok s
  | op :: ops, s =>
    match step c op s with
    | .ok s2 => run c ops s2
    | .error e => .error e

/-- The state in which object `o` has just been created (`RefCounted()` gives count 0) and no
handle exists. -/
def freshState (o : Addr) : State :=
  { heap := fun a => if a = o then RefCounted.ctor
                     else { alive := false, refCount := 0, deletes := 0 },
    handles := fun _ => none }

/-- Number of live handles whose stored address is `o`.  Handles are objects in memory, so they
are looked for at the machine addresses `0 .. 2 ^ width - 1`. -/
def holders (c : Cfg) (s : State) (o : Addr) : Nat :=
  ((Finset.range (2 ^ c.width)).filter (fun a => s.handles a = some o)).card

/-- `a` can be the address of a handle: a non-null machine address other than that of `o`. -/
def validLoc (c : Cfg) (o a : Addr) : Bool :=
  decide (a ≠ nullptr) && decide (a ≠ o) && decide (a < 2 ^ c.width)

/-- `a` is storage in which a new handle can be constructed. -/
def freshLoc (c : Cfg) (o : Addr) (s : State) (a : Addr) : Bool :=
  validLoc c o a && (s.handles a).isNone

/-- A live handle is stored at `a`. -/
def liveLoc (s : State) (a : Addr) : Bool :=
  (s.handles a).isSome

/-- The raw address `p` is null, or the address of `o` while `o` has not been destroyed. -/
def rawOk (o : Addr) (s : State) (p : Addr) : Bool :=
  decide (p = nullptr) || (decide (p = o) && (s.heap o).alive)

/-- The operations considered for the count invariant over a single object `o`, with their
side conditions: new handles are constructed in free storage, existing handles are alive, raw
addresses are `o` (not yet destroyed) or null, and constructions and resets from a raw address
retain. -/
def admissible (c : Cfg) (o : Addr) (s : State) : Op → Bool
  | .ctor this ptr true => freshLoc c o s this && rawOk o s ptr
  | .copyCtor this other => freshLoc c o s this && liveLoc s other
  | .moveCtor this other => freshLoc c o s this && liveLoc s other
  | .dtor this => liveLoc s this
  | .assign this rhs => liveLoc s this && liveLoc s rhs
  | .assignMove this rhs => liveLoc s this && liveLoc s rhs
  | .assignRaw this ptr => liveLoc s this && rawOk o s ptr
  | .reset this => liveLoc s this
  | .resetTo this ptr true => liveLoc s this && rawOk o s ptr
  | .swap this other => liveLoc s this && liveLoc s other
  | _ => false

/-- Every operation of the sequence is admissible in the state in which it is executed. -/
def admissibleRun (c : Cfg) (o : Addr) : State → List Op → Bool
  | _, [] => true
  | s, op :: ops =>
    admissible c o s op &&
    match step c op s with
    | .ok s2 => admissibleRun c o s2 ops
    | .error _ => true

/-- The scenario of the specification: construct `A` (at 8) over `O` (at 1) with retain, copy
`A` into `B` (at 9), destroy `A`, move `B` into `C` (at 10), destroy `C`. -/
def scenario : List Op :=
  [.ctor 8 1 true, .copyCtor 9 8, .dtor 8, .moveCtor 10 9, .dtor 10]

/-! ## Operations in which handles are the only owners of references -/

/-- Every live handle sits at a valid handle address and holds `o` or null. -/
def HandlesOK (c : Cfg) (o : Addr) (hs : Addr → Option Addr) : Prop :=
  ∀ a p, hs a = some p → validLoc c o a = true ∧ (p = nullptr ∨ p = o)

/-- The count invariant for the single object `o`: while `o` is alive its count is the number
of live handles holding it and it has never been deleted; once it is dead no handle holds it
and it has been deleted exactly once. -/
structure Inv (c : Cfg) (o : Addr) (s : State) : Prop where
  handlesOK : HandlesOK c o s.handles
  counted : ((s.heap o).alive = true ∧ (s.heap o).refCount = holders c s o ∧
              (s.heap o).deletes = 0) ∨
            ((s.heap o).alive = false ∧ holders c s o = 0 ∧ (s.heap o).deletes = 1)

/-- The object `o` is owned: if it is alive, at least one live handle holds it. -/
def Owned (c : Cfg) (o : Addr) (s : State) : Prop :=
  (s.heap o).alive = true → 1 ≤ holders c s o

/-! ## All public handle operations, with references detached from handles -/

/-- `a` is storage in which a new handle can be constructed: a free, non-null machine
address. -/
def freeLoc (c : Cfg) (s : State) (a : Addr) : Bool :=
  decide (a ≠ nullptr) && decide (a < 2 ^ c.width) && (s.handles a).isNone

/-- The raw address `p` can be retained: it is null, or the address of a live object whose
count is below the maximum of `std::size_t`. -/
def canRetain (c : Cfg) (s : State) (p : Addr) : Bool :=
  decide (p = nullptr) || ((s.heap p).alive && decide ((s.heap p).refCount + 1 < 2 ^ c.width))

/-- A live handle is stored at `a` and the address it holds can be retained. -/
def canRetainHeld (c : Cfg) (s : State) (a : Addr) : Bool :=
  match s.handles a with
  | some p => canRetain c s p
  | none => false

/-- The raw address `p` can be adopted without a retain: it is null, or a reference to it has
been detached from a handle and not been adopted since (`loose p` counts those references). -/
def canAdopt (loose : Addr → Nat) (p : Addr) : Bool :=
  decide (p = nullptr) || decide (1 ≤ loose p)

/-- The references detached from handles and not yet adopted, after one operation: `detach`
adds one for the address it returns, a construction or reset with `addRef = false` uses one. -/
def looseAfter (loose : Addr → Nat) (s : State) : Op → Addr → Nat
  | .detach this =>
    match s.handles this with
    | some p => Function.update loose p (loose p + 1)
    | none => loose
  | .ctor _ ptr false => Function.update loose ptr (loose ptr - 1)
  | .resetTo _ ptr false => Function.update loose ptr (loose ptr - 1)
  | _ => loose

/-- The public handle operations with their side conditions: new handles are constructed in
free storage, existing handles are alive, a retained address is null or a live object whose
count is below the maximum, and an address adopted with `addRef = false` is null or carries a
reference detached earlier. -/
def permitted (c : Cfg) (loose : Addr → Nat) (s : State) : Op → Bool
  | .ctorEmpty this => freeLoc c s this
  | .ctor this ptr true => freeLoc c s this && canRetain c s ptr
  | .ctor this ptr false => freeLoc c s this && canAdopt loose ptr
  | .copyCtor this other => freeLoc c s this && canRetainHeld c s other
  | .moveCtor this other => freeLoc c s this && liveLoc s other
  | .dtor this => liveLoc s this
  | .assign this rhs => liveLoc s this && canRetainHeld c s rhs
  | .assignMove this rhs => liveLoc s this && liveLoc s rhs
  | .assignRaw this ptr => liveLoc s this && canRetain c s ptr
  | .reset this => liveLoc s this
  | .resetTo this ptr true => liveLoc s this && canRetain c s ptr
  | .resetTo this ptr false => liveLoc s this && canAdopt loose ptr
  | .detach this => liveLoc s this
  | .swap this other => liveLoc s this && liveLoc s other
  | .convert ret this => freeLoc c s ret && canRetainHeld c s this
  | .convertMove ret this => freeLoc c s ret && liveLoc s this
  | .staticCast ret iptr => freeLoc c s ret && canRetainHeld c s iptr
  | .staticCastMove ret iptr => freeLoc c s ret && liveLoc s iptr
  | .constCast ret iptr => freeLoc c s ret && canRetainHeld c s iptr
  | .reinterpretCast ret iptr => freeLoc c s ret && canRetainHeld c s iptr
  | .reinterpretCastMove ret iptr => freeLoc c s ret && liveLoc s iptr

/-- Every operation of the sequence is permitted in the state in which it is executed. -/
def permittedRun (c : Cfg) : (Addr → Nat) → State → List Op → Bool
  | _, _, [] => true
  | loose, s, op :: ops =>
    permitted c loose s op &&
    match step c op s with
    | .ok s2 => permittedRun c (looseAfter loose s op) s2 ops
    | .error _ => true

/-- Every reference is backed: each live handle sits at a machine address, the count of a live
object is the number of live handles holding it plus the number of references detached from
handles, and a dead object has neither. -/
structure Backed (c : Cfg) (loose : Addr → Nat) (s : State) : Prop where
  located : ∀ a p, s.handles a = some p → a < 2 ^ c.width
  counted : ∀ o, o ≠ nullptr →
    ((s.heap o).alive = true ∧ (s.heap o).refCount = holders c s o + loose o ∧
      (s.heap o).refCount < 2 ^ c.width) ∨
    ((s.heap o).alive = false ∧ holders c s o = 0 ∧ loose o = 0)

/-- One retain, one detach and one destruction through a handle at address 8: the object at
`o` ends up with one more reference and no handle. -/
def leakOnce (o : Addr) : List Op := [.ctor 8 o true, .detach 8, .dtor 8]

/-- Repeat `leakOnce` `n` times. -/
def leakLoop (o : Addr) : Nat → List Op
  | 0 => []
  | n + 1 => leakOnce o ++ leakLoop o n

/-! ## Concrete configurations used to evaluate the model -/

/-- A 32-bit build with assertions compiled in. -/
def cfg32 : Cfg := { width := 32, asserts := true }

/-- A 64-bit build with assertions compiled out. -/
def cfg64 : Cfg := { width := 64, asserts := false }

/-- A heap holding one live object at address `p` whose count is `n`. -/
def heapAt (p : Addr) (n : Nat) : Heap :=
  fun a => if a = p then { alive := true, refCount := n, deletes := 0 }
           else { alive := false, refCount := 0, deletes := 0 }

/-- A heap holding two live objects, at `p` with count `n` and at `q` with count `m`. -/
def heapAt2 (p : Addr) (n : Nat) (q : Addr) (m : Nat) : Heap :=
  fun a => if a = p then { alive := true, refCount := n, deletes := 0 }
           else if a = q then { alive := true, refCount := m, deletes := 0 }
           else { alive := false, refCount := 0, deletes := 0 }

/-- An element type whose member `detach()` returns the address of the object it is called on
and changes nothing (used to evaluate the move form of `constCast`). -/
def elemDetachSelf (p : Addr) (s : State) : Except Fault (Addr × State) := .ok (p, s)

/-- A scenario with a detached reference: construct `A` (at 8) over the object at 1, detach
it, adopt the detached reference into `B` (at 9) without a retain, copy `B` into `C` (at 10),
destroy `A` (now null) and `B`. -/
def detachAdopt : List Op :=
  [.ctor 8 1 true, .detach 8, .ctor 9 1 false, .copyCtor 10 9, .dtor 8, .dtor 9]

/-- The empty handle store. -/
def noHandles : Addr → Option Addr := fun _ => none

/-- A handle store with a single live handle at `a` holding `p`. -/
def oneHandle (a p : Addr) : Addr → Option Addr :=
  fun x => if x = a then some p else none

/-- A handle store with two live handles: at `a` holding `p` and at `b` holding `q`. -/
def twoHandles (a p b q : Addr) : Addr → Option Addr :=
  fun x => if x = a then some p else if x = b then some q else none

/-! ## Basic facts about retain and release -/

theorem retain_null (c : Cfg) (h : Heap) : intrusivePtrRetain c nullptr h = .ok h := by
  simp [intrusivePtrRetain]

theorem release_null (c : Cfg) (h : Heap) : intrusivePtrRelease c nullptr h = .ok h := by
  simp [intrusivePtrRelease]

theorem retain_live (c : Cfg) (h : Heap) (p : Addr) (hp : p ≠ nullptr)
    (ha : (h p).alive = true) :
    intrusivePtrRetain c p h = .ok (Function.update h p
      { h p with refCount := ((h p).refCount + 1) % 2 ^ c.width }) := by
  simp [intrusivePtrRetain, hp, ha]

theorem pred_mod (w n : Nat) (h1 : 1 ≤ n) (h2 : n < 2 ^ w) :
    (n + 2 ^ w - 1) % 2 ^ w = n - 1 := by
  have e : n + 2 ^ w - 1 = (n - 1) + 2 ^ w := by omega
  rw [e, Nat.add_mod_right, Nat.mod_eq_of_lt (by omega)]

theorem release_live (c : Cfg) (h : Heap) (p : Addr) (hp : p ≠ nullptr)
    (ha : (h p).alive = true) (h1 : 1 ≤ (h p).refCount) (h2 : (h p).refCount < 2 ^ c.width) :
    intrusivePtrRelease c p h = .ok (Function.update h p
      { alive := decide ((h p).refCount ≠ 1), refCount := (h p).refCount - 1,
        deletes := (h p).deletes + (if (h p).refCount = 1 then 1 else 0) }) := by
  have hpos : 0 < (h p).refCount := h1
  by_cases e : (h p).refCount = 1
  · simp [intrusivePtrRelease, hp, ha, e, pred_mod]
  · have e2 : ¬ (1 = (h p).refCount) := fun x => e x.symm
    simp [intrusivePtrRelease, hp, ha, e, e2, hpos, pred_mod c.width _ h1 h2]

/-! ## Closed forms of the handle operations -/

theorem ctor_eq (c : Cfg) (s : State) (this p : Addr) (addRef : Bool) :
    IntrusivePtr.ctor c this p addRef s =
      (if addRef then intrusivePtrRetain c p s.heap else .ok s.heap).map
        (fun h => { heap := h, handles := Function.update s.handles this (some p) }) := by
  cases addRef
  · simp [IntrusivePtr.ctor, State.store, Except.map]
  · simp only [IntrusivePtr.ctor, State.load, State.store, Function.update_same, Bind.bind,
      Except.bind, Pure.pure, Except.pure, Except.map, if_true]

theorem copyCtor_eq (c : Cfg) (s : State) (this other p : Addr)
    (ho : s.handles other = some p) :
    IntrusivePtr.copyCtor c this other s =
      (intrusivePtrRetain c p s.heap).map
        (fun h => { heap := h, handles := Function.update s.handles this (some p) }) := by
  simp only [IntrusivePtr.copyCtor, State.load, State.store, ho, Function.update_same, Bind.bind,
    Except.bind, Pure.pure, Except.pure, Except.map]

theorem detach_eq (s : State) (this p : Addr) (ho : s.handles this = some p) :
    IntrusivePtr.detach this s =
      .ok (p, { heap := s.heap, handles := Function.update s.handles this (some nullptr) }) := by
  simp [IntrusivePtr.detach, State.load, State.store, ho, Bind.bind, Except.bind, Pure.pure,
    Except.pure]

theorem moveCtor_eq (s : State) (this other p : Addr) (ho : s.handles other = some p) :
    IntrusivePtr.moveCtor this other s =
      .ok { heap := s.heap,
            handles := Function.update
              (Function.update s.handles other (some nullptr)) this (some p) } := by
  simp [IntrusivePtr.moveCtor, detach_eq s other p ho, State.store, Bind.bind, Except.bind,
    Pure.pure, Except.pure]

theorem dtor_eq (c : Cfg) (s : State) (this p : Addr) (ho : s.handles this = some p) :
    IntrusivePtr.dtor c this s =
      (intrusivePtrRelease c p s.heap).map
        (fun h => { heap := h, handles := Function.update s.handles this none }) := by
  simp only [IntrusivePtr.dtor, State.load, ho, Bind.bind, Except.bind, Pure.pure, Except.pure,
    Except.map]

theorem reset_eq (c : Cfg) (s : State) (this p : Addr) (ho : s.handles this = some p) :
    IntrusivePtr.reset c this s =
      (intrusivePtrRelease c p s.heap).map
        (fun h => { heap := h, handles := Function.update s.handles this (some nullptr) }) := by
  simp only [IntrusivePtr.reset, State.load, State.store, ho, Bind.bind, Except.bind, Pure.pure,
    Except.pure, Except.map]

theorem resetTo_eq (c : Cfg) (s : State) (this q p : Addr) (addRef : Bool)
    (ho : s.handles this = some q) :
    IntrusivePtr.resetTo c this p addRef s =
      ((if addRef then intrusivePtrRetain c p s.heap else .ok s.heap).bind
        (intrusivePtrRelease c q)).map
        (fun h => { heap := h, handles := Function.update s.handles this (some p) }) := by
  simp only [IntrusivePtr.resetTo, State.load, State.store, ho, Bind.bind, Pure.pure,
    Except.pure, Except.map]
  cases addRef
  · simp only [Bool.false_eq_true, if_false, Except.bind]
  · simp only [if_true]
    cases intrusivePtrRetain c p s.heap with
    | error e => rfl
    | ok h1 => simp only [Except.bind]

/-! ## Retain followed by release -/

theorem retained_of_retain_live (c : Cfg) (h : Heap) (p : Addr) :
    Retained c h (Function.update h p
      { h p with refCount := ((h p).refCount + 1) % 2 ^ c.width }) p := by
  refine ⟨by simp, fun hlt => ?_, by simp, by simp⟩
  simp [Nat.mod_eq_of_lt hlt]

theorem state_eq (s : State) (h : Heap) (hs : Addr → Option Addr)
    (e1 : h = s.heap) (e2 : hs = s.handles) : ({ heap := h, handles := hs } : State) = s := by
  cases s
  simp_all

/-- Retaining and then releasing a live object restores the heap, provided either the
increment does not wrap or assertions are compiled out. -/
theorem retain_release_self (c : Cfg) (h : Heap) (p : Addr) (hp : p ≠ nullptr)
    (ha : (h p).alive = true) (h1 : 1 ≤ (h p).refCount) (h2 : (h p).refCount < 2 ^ c.width)
    (hfit : c.asserts = true → (h p).refCount + 1 < 2 ^ c.width) :
    (intrusivePtrRetain c p h).bind (intrusivePtrRelease c p) = .ok h := by
  rw [retain_live c h p hp ha]
  simp only [Except.bind]
  by_cases hlt : (h p).refCount + 1 < 2 ^ c.width
  · have hm : ((h p).refCount + 1) % 2 ^ c.width = (h p).refCount + 1 := Nat.mod_eq_of_lt hlt
    have hback : ((h p).refCount + 1 + 2 ^ c.width - 1) % 2 ^ c.width = (h p).refCount := by
      have e : (h p).refCount + 1 + 2 ^ c.width - 1 = (h p).refCount + 2 ^ c.width := by omega
      rw [e, Nat.add_mod_right, Nat.mod_eq_of_lt h2]
    have hne : ¬ (1 = (h p).refCount + 1) := by omega
    simp only [intrusivePtrRelease, hp, ne_eq, not_false_eq_true, if_true, Function.update_same,
      ha, hm, hback, hne, if_false, Function.update_idem]
    have hpos : 0 < (h p).refCount + 1 := by omega
    simp only [hpos, not_true_eq_false, and_false, if_false]
    congr 1
    funext a
    by_cases e : a = p
    · subst e
      cases hx : h a
      simp_all
    · simp [Function.update, e]
  · have hoff : c.asserts = false := by
      cases hc : c.asserts
      · rfl
      · exact absurd (hfit hc) hlt
    have heq : (h p).refCount + 1 = 2 ^ c.width := by omega
    have hm : ((h p).refCount + 1) % 2 ^ c.width = 0 := by
      rw [heq, Nat.mod_self]
    have hback : (0 + 2 ^ c.width - 1) % 2 ^ c.width = (h p).refCount := by
      have e : 0 + 2 ^ c.width - 1 = (h p).refCount := by omega
      rw [e, Nat.mod_eq_of_lt h2]
    simp only [intrusivePtrRelease, hp, ne_eq, not_false_eq_true, if_true, Function.update_same,
      ha, hm, hback, hoff, Bool.false_eq_true, false_and, if_false, Function.update_idem]
    simp only [show ¬ ((1 : Nat) = 0) by decide, if_false]
    congr 1
    funext a
    by_cases e : a = p
    · subst e
      cases hx : h a
      simp_all
    · simp [Function.update, e]

/-! ## Counting the handles that hold an object -/

theorem holders_update (c : Cfg) (h h2 : Heap) (hs : Addr → Option Addr) (o a : Addr)
    (v : Option Addr) (ha : a < 2 ^ c.width) :
    holders c { heap := h2, handles := Function.update hs a v } o
        + (if hs a = some o then 1 else 0)
      = holders c { heap := h, handles := hs } o + (if v = some o then 1 else 0) := by
  unfold holders
  simp only
  have hmem : a ∈ Finset.range (2 ^ c.width) := Finset.mem_range.mpr ha
  have hsplit : Finset.range (2 ^ c.width) = insert a ((Finset.range (2 ^ c.width)).erase a) :=
    (Finset.insert_erase hmem).symm
  have hnot : ∀ P : Addr → Prop, ∀ _ : DecidablePred P,
      a ∉ ((Finset.range (2 ^ c.width)).erase a).filter P := by
    intro P _ hx
    exact Finset.not_mem_erase a _ (Finset.mem_of_mem_filter a hx)
  have hrest : ((Finset.range (2 ^ c.width)).erase a).filter
        (fun x => Function.update hs a v x = some o)
      = ((Finset.range (2 ^ c.width)).erase a).filter (fun x => hs x = some o) := by
    apply Finset.filter_congr
    intro x hx
    have hne : x ≠ a := Finset.ne_of_mem_erase hx
    simp [Function.update, hne]
  rw [hsplit, Finset.filter_insert, Finset.filter_insert, hrest]
  simp only [Function.update_same]
  by_cases h1 : v = some o <;> by_cases h2 : hs a = some o <;>
    simp [h1, h2, Finset.card_insert_of_not_mem (hnot _ _)]

theorem holders_pos (c : Cfg) (s : State) (o a : Addr) (ha : a < 2 ^ c.width)
    (hh : s.handles a = some o) : 1 ≤ holders c s o := by
  unfold holders
  apply Finset.card_pos.mpr
  exact ⟨a, Finset.mem_filter.mpr ⟨Finset.mem_range.mpr ha, hh⟩⟩

theorem validLoc_iff (c : Cfg) (o a : Addr) :
    validLoc c o a = true ↔ a ≠ nullptr ∧ a ≠ o ∧ a < 2 ^ c.width := by
  simp [validLoc, and_assoc]

/-- Live handles occupy distinct machine addresses other than null and `o`, so there are at
most `2 ^ width - 2` of them. -/
theorem holders_le (c : Cfg) (s : State) (o : Addr) (ho : o ≠ nullptr) (hw : o < 2 ^ c.width)
    (hok : HandlesOK c o s.handles) : holders c s o + 2 ≤ 2 ^ c.width := by
  unfold holders
  have hsub : (Finset.range (2 ^ c.width)).filter (fun a => s.handles a = some o)
      ⊆ ((Finset.range (2 ^ c.width)).erase 0).erase o := by
    intro a ha
    obtain ⟨h1, h2⟩ := Finset.mem_filter.mp ha
    obtain ⟨hv, _⟩ := hok a o h2
    obtain ⟨v1, v2, _⟩ := (validLoc_iff c o a).mp hv
    exact Finset.mem_erase.mpr ⟨v2, Finset.mem_erase.mpr ⟨v1, h1⟩⟩
  have hcard := Finset.card_le_card hsub
  have ho0 : o ≠ 0 := ho
  have h0 : 0 ∈ Finset.range (2 ^ c.width) := Finset.mem_range.mpr (Nat.two_pow_pos _)
  have h1 : o ∈ (Finset.range (2 ^ c.width)).erase 0 :=
    Finset.mem_erase.mpr ⟨ho, Finset.mem_range.mpr hw⟩
  rw [Finset.card_erase_of_mem h1, Finset.card_erase_of_mem h0, Finset.card_range] at hcard
  have hw2 : 2 ≤ 2 ^ c.width := by
    have e1 : (1 : Nat) ≤ o := Nat.one_le_iff_ne_zero.mpr ho0
    exact Nat.lt_of_le_of_lt e1 hw
  omega

/-- With one more valid handle address still free, there is room for one more handle. -/
theorem holders_lt_of_fresh (c : Cfg) (s : State) (o a : Addr) (ho : o ≠ nullptr)
    (hw : o < 2 ^ c.width) (hok : HandlesOK c o s.handles)
    (hfresh : freshLoc c o s a = true) : holders c s o + 3 ≤ 2 ^ c.width := by
  have hv : validLoc c o a = true ∧ s.handles a = none := by
    simpa [freshLoc] using hfresh
  obtain ⟨a1, a2, a3⟩ := (validLoc_iff c o a).mp hv.1
  have a0 : a ≠ 0 := a1
  unfold holders
  have hsub : (Finset.range (2 ^ c.width)).filter (fun x => s.handles x = some o)
      ⊆ (((Finset.range (2 ^ c.width)).erase 0).erase o).erase a := by
    intro x hx
    obtain ⟨h1, h2⟩ := Finset.mem_filter.mp hx
    obtain ⟨hv2, _⟩ := hok x o h2
    obtain ⟨v1, v2, _⟩ := (validLoc_iff c o x).mp hv2
    have hxa : x ≠ a := by
      rintro rfl
      rw [hv.2] at h2
      exact Option.noConfusion h2
    exact Finset.mem_erase.mpr ⟨hxa, Finset.mem_erase.mpr ⟨v2, Finset.mem_erase.mpr ⟨v1, h1⟩⟩⟩
  have hcard := Finset.card_le_card hsub
  have ho0 : o ≠ 0 := ho
  have h0 : 0 ∈ Finset.range (2 ^ c.width) := Finset.mem_range.mpr (Nat.two_pow_pos _)
  have h1 : o ∈ (Finset.range (2 ^ c.width)).erase 0 :=
    Finset.mem_erase.mpr ⟨ho, Finset.mem_range.mpr hw⟩
  have h2 : a ∈ ((Finset.range (2 ^ c.width)).erase 0).erase o :=
    Finset.mem_erase.mpr ⟨a2, Finset.mem_erase.mpr ⟨a1, Finset.mem_range.mpr a3⟩⟩
  rw [Finset.card_erase_of_mem h2, Finset.card_erase_of_mem h1, Finset.card_erase_of_mem h0,
    Finset.card_range] at hcard
  have : 3 ≤ 2 ^ c.width := by
    have hc1 : 1 ≤ (((Finset.range (2 ^ c.width)).erase 0).erase o).card :=
      Finset.card_pos.mpr ⟨a, h2⟩
    rw [Finset.card_erase_of_mem h1, Finset.card_erase_of_mem h0, Finset.card_range] at hc1
    omega
  omega

/-! ## Preservation of the invariant -/

theorem handlesOK_update (c : Cfg) (o : Addr) (hs : Addr → Option Addr) (a v : Addr)
    (hok : HandlesOK c o hs) (ha : validLoc c o a = true) (hv : v = nullptr ∨ v = o) :
    HandlesOK c o (Function.update hs a (some v)) := by
  intro x p hx
  by_cases e : x = a
  · subst e
    rw [Function.update_same] at hx
    exact ⟨ha, (Option.some.inj hx) ▸ hv⟩
  · rw [Function.update_noteq e] at hx
    exact hok x p hx

theorem handlesOK_remove (c : Cfg) (o : Addr) (hs : Addr → Option Addr) (a : Addr)
    (hok : HandlesOK c o hs) : HandlesOK c o (Function.update hs a none) := by
  intro x p hx
  by_cases e : x = a
  · subst e
    rw [Function.update_same] at hx
    exact Option.noConfusion hx
  · rw [Function.update_noteq e] at hx
    exact hok x p hx

theorem inv_same (c : Cfg) (o : Addr) (s s2 : State) (hinv : Inv c o s)
    (hok : HandlesOK c o s2.handles) (hheap : s2.heap o = s.heap o)
    (hh : holders c s2 o = holders c s o) :
    Inv c o s2 ∧ (Owned c o s → Owned c o s2) := by
  refine ⟨⟨hok, ?_⟩, ?_⟩
  · rw [hheap, hh]
    exact hinv.counted
  · intro hown
    unfold Owned at *
    rw [hheap, hh]
    exact hown

theorem inv_inc (c : Cfg) (o : Addr) (s s2 : State) (hinv : Inv c o s)
    (hok : HandlesOK c o s2.handles) (halive : (s.heap o).alive = true)
    (hheap : s2.heap o = { s.heap o with refCount := (s.heap o).refCount + 1 })
    (hh : holders c s2 o = holders c s o + 1) :
    Inv c o s2 ∧ (Owned c o s → Owned c o s2) := by
  rcases hinv.counted with ⟨_, h2, h3⟩ | ⟨h1, _, _⟩
  · refine ⟨⟨hok, Or.inl ?_⟩, fun _ _ => ?_⟩
    · rw [hheap, hh]
      exact ⟨halive, by simp [h2], h3⟩
    · rw [hh]
      omega
  · rw [h1] at halive
    exact Bool.noConfusion halive

theorem inv_dec (c : Cfg) (o : Addr) (s s2 : State) (hinv : Inv c o s)
    (hok : HandlesOK c o s2.handles) (halive : (s.heap o).alive = true)
    (hheap : s2.heap o =
      { alive := decide ((s.heap o).refCount ≠ 1), refCount := (s.heap o).refCount - 1,
        deletes := (s.heap o).deletes + (if (s.heap o).refCount = 1 then 1 else 0) })
    (hh : holders c s2 o + 1 = holders c s o) :
    Inv c o s2 ∧ (Owned c o s → Owned c o s2) := by
  rcases hinv.counted with ⟨_, h2, h3⟩ | ⟨h1, _, _⟩
  · by_cases e : (s.heap o).refCount = 1
    · refine ⟨⟨hok, Or.inr ?_⟩, fun _ hal => ?_⟩
      · rw [hheap]
        refine ⟨by simp [e], by omega, by simp [e, h3]⟩
      · rw [hheap] at hal
        simp [e] at hal
    · refine ⟨⟨hok, Or.inl ?_⟩, fun _ _ => by omega⟩
      rw [hheap]
      refine ⟨by simp [e], ?_, by simp [e, h3]⟩
      show (s.heap o).refCount - 1 = holders c s2 o
      omega
  · rw [h1] at halive
    exact Bool.noConfusion halive

theorem alive_of_holder (c : Cfg) (o : Addr) (s : State) (hinv : Inv c o s) (a : Addr)
    (hh : s.handles a = some o) :
    (s.heap o).alive = true ∧ 1 ≤ (s.heap o).refCount ∧
      (s.heap o).refCount = holders c s o := by
  obtain ⟨hv, _⟩ := hinv.handlesOK a o hh
  obtain ⟨_, _, a3⟩ := (validLoc_iff c o a).mp hv
  have hpos := holders_pos c s o a a3 hh
  rcases hinv.counted with ⟨h1, h2, _⟩ | ⟨_, h2, _⟩
  · exact ⟨h1, by omega, h2⟩
  · omega

/-- Under the invariant a retain of `o` cannot wrap: the count is at most `2 ^ width - 2`. -/
theorem retain_o (c : Cfg) (o : Addr) (s : State) (ho : o ≠ nullptr) (hw : o < 2 ^ c.width)
    (hinv : Inv c o s) (halive : (s.heap o).alive = true) :
    (s.heap o).refCount + 2 ≤ 2 ^ c.width ∧
    intrusivePtrRetain c o s.heap = .ok (Function.update s.heap o
      { s.heap o with refCount := (s.heap o).refCount + 1 }) := by
  have hle := holders_le c s o ho hw hinv.handlesOK
  have hcnt : (s.heap o).refCount = holders c s o := by
    rcases hinv.counted with ⟨_, h2, _⟩ | ⟨h1, _, _⟩
    · exact h2
    · rw [h1] at halive
      exact Bool.noConfusion halive
  have hlt : (s.heap o).refCount + 1 < 2 ^ c.width := by omega
  refine ⟨by omega, ?_⟩
  rw [retain_live c s.heap o ho halive, Nat.mod_eq_of_lt hlt]

theorem release_o (c : Cfg) (o : Addr) (s : State) (ho : o ≠ nullptr) (hw : o < 2 ^ c.width)
    (hinv : Inv c o s) (a : Addr) (hh : s.handles a = some o) :
    intrusivePtrRelease c o s.heap = .ok (Function.update s.heap o
      { alive := decide ((s.heap o).refCount ≠ 1), refCount := (s.heap o).refCount - 1,
        deletes := (s.heap o).deletes + (if (s.heap o).refCount = 1 then 1 else 0) }) := by
  obtain ⟨h1, h2, h3⟩ := alive_of_holder c o s hinv a hh
  have hle := holders_le c s o ho hw hinv.handlesOK
  exact release_live c s.heap o ho h1 h2 (by omega)

/-- The joint effect of an optional retain of `o` (`p = o`) followed by an optional release of
`o` (`q = o`) under the invariant: the calls return, and any handle store whose number of
holders changed accordingly satisfies the invariant again. -/
theorem heap_step (c : Cfg) (o : Addr) (s : State) (p q : Addr) (ho : o ≠ nullptr)
    (hw : o < 2 ^ c.width) (hinv : Inv c o s)
    (hp : p = nullptr ∨ (p = o ∧ (s.heap o).alive = true))
    (hq : q = nullptr ∨ (q = o ∧ ∃ a, s.handles a = some o)) :
    ∃ h2, (intrusivePtrRetain c p s.heap).bind (intrusivePtrRelease c q) = .ok h2 ∧
      ∀ hs2, HandlesOK c o hs2 →
        holders c { heap := h2, handles := hs2 } o + (if q = o then 1 else 0)
          = holders c s o + (if p = o then 1 else 0) →
        Inv c o { heap := h2, handles := hs2 } ∧
          (Owned c o s → Owned c o { heap := h2, handles := hs2 }) := by
  have ho2 : ¬ (nullptr = o) := fun e => ho e.symm
  rcases hp with hp0 | ⟨hpo, halive⟩ <;> rcases hq with hq0 | ⟨hqo, a, hh⟩
  · rw [hp0, hq0]
    refine ⟨s.heap, by simp [retain_null, Except.bind, release_null], fun hs2 hok hcount => ?_⟩
    simp only [ho2, if_false, Nat.add_zero] at hcount
    exact inv_same c o s _ hinv hok rfl hcount
  · rw [hp0, hqo]
    refine ⟨Function.update s.heap o
        { alive := decide ((s.heap o).refCount ≠ 1), refCount := (s.heap o).refCount - 1,
          deletes := (s.heap o).deletes + (if (s.heap o).refCount = 1 then 1 else 0) },
      by simp only [retain_null, Except.bind, release_o c o s ho hw hinv a hh],
      fun hs2 hok hcount => ?_⟩
    simp only [ho2, if_false, if_true, Nat.add_zero] at hcount
    exact inv_dec c o s _ hinv hok (alive_of_holder c o s hinv a hh).1 (by simp) hcount
  · rw [hpo, hq0]
    refine ⟨Function.update s.heap o { s.heap o with refCount := (s.heap o).refCount + 1 },
      by simp only [(retain_o c o s ho hw hinv halive).2, Except.bind, release_null],
      fun hs2 hok hcount => ?_⟩
    simp only [ho2, if_false, if_true, Nat.add_zero] at hcount
    exact inv_inc c o s _ hinv hok halive (by simp) hcount
  · rw [hpo, hqo]
    obtain ⟨h1, h2, h3⟩ := alive_of_holder c o s hinv a hh
    have hle := holders_le c s o ho hw hinv.handlesOK
    refine ⟨s.heap, retain_release_self c s.heap o ho h1 h2 (by omega) (fun _ => by omega),
      fun hs2 hok hcount => ?_⟩
    simp only [if_true] at hcount
    exact inv_same c o s _ hinv hok rfl (by omega)

theorem bind_release_null (c : Cfg) (x : Except Fault Heap) :
    x.bind (intrusivePtrRelease c nullptr) = x := by
  cases x with
  | error e => rfl
  | ok h => simp [Except.bind, release_null]

theorem retain_null_bind (c : Cfg) (h : Heap) (f : Heap → Except Fault Heap) :
    (intrusivePtrRetain c nullptr h).bind f = f h := by
  simp [retain_null, Except.bind]

/-- What the invariant says about the value `q` of a live handle at `a`. -/
theorem handle_facts (c : Cfg) (o : Addr) (s : State) (hinv : Inv c o s) (a q : Addr)
    (hh : s.handles a = some q) :
    validLoc c o a = true ∧ a < 2 ^ c.width ∧
    (q = nullptr ∨ (q = o ∧ (s.heap o).alive = true)) ∧
    (q = nullptr ∨ (q = o ∧ ∃ b, s.handles b = some o)) := by
  obtain ⟨hv, hq⟩ := hinv.handlesOK a q hh
  obtain ⟨_, _, a3⟩ := (validLoc_iff c o a).mp hv
  refine ⟨hv, a3, ?_, ?_⟩
  · rcases hq with h0 | h1
    · exact Or.inl h0
    · subst h1
      exact Or.inr ⟨rfl, (alive_of_holder c q s hinv a hh).1⟩
  · rcases hq with h0 | h1
    · exact Or.inl h0
    · subst h1
      exact Or.inr ⟨rfl, a, hh⟩

theorem rawOk_iff (o : Addr) (s : State) (p : Addr) :
    rawOk o s p = true ↔ p = nullptr ∨ (p = o ∧ (s.heap o).alive = true) := by
  simp [rawOk]

theorem liveLoc_iff (s : State) (a : Addr) :
    liveLoc s a = true ↔ ∃ q, s.handles a = some q := by
  simp [liveLoc, Option.isSome_iff_exists]

theorem freshLoc_iff (c : Cfg) (o : Addr) (s : State) (a : Addr) :
    freshLoc c o s a = true ↔ validLoc c o a = true ∧ s.handles a = none := by
  simp [freshLoc]

/-- Construction of a retaining handle in free storage (shared by `ctor` and `copyCtor`). -/
theorem construct_inv (c : Cfg) (o : Addr) (s : State) (this p : Addr) (ho : o ≠ nullptr)
    (hw : o < 2 ^ c.width) (hinv : Inv c o s) (hfresh : freshLoc c o s this = true)
    (hp : p = nullptr ∨ (p = o ∧ (s.heap o).alive = true)) :
    ∃ s2, (intrusivePtrRetain c p s.heap).map
        (fun h => ({ heap := h, handles := Function.update s.handles this (some p) } : State))
          = .ok s2 ∧
      Inv c o s2 ∧ (Owned c o s → Owned c o s2) := by
  obtain ⟨hv, hnone⟩ := (freshLoc_iff c o s this).mp hfresh
  obtain ⟨_, _, hlt⟩ := (validLoc_iff c o this).mp hv
  obtain ⟨h2, e2, hfin⟩ := heap_step c o s p nullptr ho hw hinv hp (Or.inl rfl)
  rw [bind_release_null] at e2
  refine ⟨_, by rw [e2]; rfl, ?_⟩
  apply hfin
  · exact handlesOK_update c o s.handles this p hinv.handlesOK hv (hp.imp id (fun x => x.1))
  · have hu := holders_update c s.heap h2 s.handles o this (some p) hlt
    have ho2 : ¬ (nullptr = o) := fun e => ho e.symm
    simp only [hnone, Option.some.injEq, ho2, if_false, Nat.add_zero] at hu ⊢
    exact hu

/-- Release of the handle's address followed by overwriting (or ending) the handle
(shared by `dtor`, `reset`, `reset(p, true)` and the assignments). -/
theorem replace_inv (c : Cfg) (o : Addr) (s : State) (this p q : Addr) (v : Option Addr)
    (ho : o ≠ nullptr) (hw : o < 2 ^ c.width) (hinv : Inv c o s)
    (hthis : s.handles this = some q)
    (hp : p = nullptr ∨ (p = o ∧ (s.heap o).alive = true))
    (hv : (v = none ∧ p = nullptr) ∨ v = some p ∨ (v = some nullptr ∧ p = nullptr)) :
    ∃ s2, ((intrusivePtrRetain c p s.heap).bind (intrusivePtrRelease c q)).map
        (fun h => ({ heap := h, handles := Function.update s.handles this v } : State))
          = .ok s2 ∧
      Inv c o s2 ∧ (Owned c o s → Owned c o s2) := by
  obtain ⟨hval, hlt, _, hq⟩ := handle_facts c o s hinv this q hthis
  obtain ⟨h2, e2, hfin⟩ := heap_step c o s p q ho hw hinv hp hq
  refine ⟨_, by rw [e2]; rfl, ?_⟩
  have ho2 : ¬ (nullptr = o) := fun e => ho e.symm
  apply hfin
  · rcases hv with ⟨rfl, _⟩ | rfl | ⟨rfl, _⟩
    · exact handlesOK_remove c o s.handles this hinv.handlesOK
    · exact handlesOK_update c o s.handles this p hinv.handlesOK hval
        (hp.imp id (fun x => x.1))
    · exact handlesOK_update c o s.handles this nullptr hinv.handlesOK hval (Or.inl rfl)
  · have hu := holders_update c s.heap h2 s.handles o this v hlt
    rcases hv with ⟨rfl, hp0⟩ | rfl | ⟨rfl, hp0⟩
    · subst hp0
      simp only [hthis, Option.some.injEq, ho2, if_false, reduceCtorEq] at hu ⊢
      exact hu
    · simp only [hthis, Option.some.injEq] at hu ⊢
      exact hu
    · subst hp0
      simp only [hthis, Option.some.injEq] at hu ⊢
      exact hu

theorem moveCtor_inv (c : Cfg) (o : Addr) (s : State) (this other p : Addr)
    (ho : o ≠ nullptr) (hinv : Inv c o s) (hfresh : freshLoc c o s this = true)
    (hother : s.handles other = some p) :
    Inv c o (State.mk s.heap
        (Function.update (Function.update s.handles other (some nullptr)) this (some p))) ∧
      (Owned c o s → Owned c o (State.mk s.heap
        (Function.update (Function.update s.handles other (some nullptr)) this (some p)))) := by
  obtain ⟨hv, hnone⟩ := (freshLoc_iff c o s this).mp hfresh
  obtain ⟨_, _, hlt⟩ := (validLoc_iff c o this).mp hv
  obtain ⟨hvo, hlto, hp, _⟩ := handle_facts c o s hinv other p hother
  have hne : this ≠ other := by
    rintro rfl
    rw [hnone] at hother
    exact Option.noConfusion hother
  have ho2 : ¬ (nullptr = o) := fun e => ho e.symm
  apply inv_same c o s _ hinv
  · exact handlesOK_update c o _ this p
      (handlesOK_update c o _ other nullptr hinv.handlesOK hvo (Or.inl rfl)) hv
      (hp.imp id (fun x => x.1))
  · rfl
  · have h1 := holders_update c s.heap s.heap s.handles o other (some nullptr) hlto
    have h2 := holders_update c s.heap s.heap
      (Function.update s.handles other (some nullptr)) o this (some p) hlt
    simp only [Function.update_noteq hne, hnone, hother, Option.some.injEq, ho2, if_false,
      reduceCtorEq, Nat.add_zero] at h1 h2
    show holders c { heap := s.heap, handles := _ } o = holders c { heap := s.heap, handles := s.handles } o
    omega

theorem swap_inv (c : Cfg) (o : Addr) (s : State) (a b va vb : Addr)
    (hinv : Inv c o s) (ha : s.handles a = some va) (hb : s.handles b = some vb) :
    Inv c o (State.mk s.heap
        (Function.update (Function.update s.handles a (some vb)) b (some va))) ∧
      (Owned c o s → Owned c o (State.mk s.heap
        (Function.update (Function.update s.handles a (some vb)) b (some va)))) := by
  obtain ⟨hva, hlta, hpa, _⟩ := handle_facts c o s hinv a va ha
  obtain ⟨hvb, hltb, hpb, _⟩ := handle_facts c o s hinv b vb hb
  apply inv_same c o s _ hinv
  · exact handlesOK_update c o _ b va
      (handlesOK_update c o _ a vb hinv.handlesOK hva (hpb.imp id (fun x => x.1))) hvb
      (hpa.imp id (fun x => x.1))
  · rfl
  · have h1 := holders_update c s.heap s.heap s.handles o a (some vb) hlta
    have h2 := holders_update c s.heap s.heap
      (Function.update s.handles a (some vb)) o b (some va) hltb
    show holders c { heap := s.heap, handles := _ } o = holders c { heap := s.heap, handles := s.handles } o
    by_cases hab : b = a
    · subst hab
      have e : va = vb := Option.some.inj (ha.symm.trans hb)
      subst e
      simp only [Function.update_same, ha, Option.some.injEq] at h1 h2
      omega
    · simp only [Function.update_noteq hab, ha, hb, Option.some.injEq] at h1 h2
      omega

theorem assignMove_inv (c : Cfg) (o : Addr) (s : State) (this rhs p q : Addr)
    (ho : o ≠ nullptr) (hw : o < 2 ^ c.width) (hinv : Inv c o s)
    (hthis : s.handles this = some q) (hrhs : s.handles rhs = some p) :
    ∃ s2, IntrusivePtr.assignMove c this rhs s = .ok s2 ∧
      Inv c o s2 ∧ (Owned c o s → Owned c o s2) := by
  obtain ⟨hvt, hltt, _, hq⟩ := handle_facts c o s hinv this q hthis
  obtain ⟨hvr, hltr, hp, _⟩ := handle_facts c o s hinv rhs p hrhs
  have ho2 : ¬ (nullptr = o) := fun e => ho e.symm
  simp only [IntrusivePtr.assignMove, detach_eq s rhs p hrhs, Bind.bind, Except.bind]
  by_cases e : this = rhs
  · subst e
    rw [resetTo_eq c _ this nullptr p false (by simp)]
    simp only [Bool.false_eq_true, if_false, Except.bind, release_null, Except.map,
      Function.update_idem]
    refine ⟨_, rfl, ?_⟩
    have hs : Function.update s.handles this (some p) = s.handles :=
      Function.update_eq_self_iff.mpr hrhs.symm
    rw [hs]
    exact inv_same c o s _ hinv hinv.handlesOK rfl rfl
  · rw [resetTo_eq c _ this q p false (by simp [Function.update_noteq e, hthis])]
    simp only [Bool.false_eq_true, if_false, Except.bind]
    obtain ⟨h2, e2, hfin⟩ := heap_step c o s nullptr q ho hw hinv (Or.inl rfl) hq
    rw [retain_null_bind] at e2
    simp only [e2, Except.map]
    refine ⟨_, rfl, ?_⟩
    apply hfin
    · exact handlesOK_update c o _ this p
        (handlesOK_update c o _ rhs nullptr hinv.handlesOK hvr (Or.inl rfl)) hvt
        (hp.imp id (fun x => x.1))
    · have h1 := holders_update c s.heap h2 s.handles o rhs (some nullptr) hltr
      have h3 := holders_update c h2 h2
        (Function.update s.handles rhs (some nullptr)) o this (some p) hltt
      have hH : holders c { heap := s.heap, handles := s.handles } o = holders c s o := rfl
      simp only [Function.update_noteq e, hthis, hrhs, Option.some.injEq, ho2, if_false,
        Nat.add_zero, hH] at h1 h3 ⊢
      omega

/-- Every admissible operation returns and preserves the invariant (and ownership). -/
theorem step_inv (c : Cfg) (o : Addr) (s : State) (op : Op) (ho : o ≠ nullptr)
    (hw : o < 2 ^ c.width) (hinv : Inv c o s) (hadm : admissible c o s op = true) :
    ∃ s2, step c op s = .ok s2 ∧ Inv c o s2 ∧ (Owned c o s → Owned c o s2) := by
  cases op with
  | ctor this p addRef =>
    cases addRef with
    | false => simp [admissible] at hadm
    | true =>
      simp only [admissible, Bool.and_eq_true] at hadm
      have h := construct_inv c o s this p ho hw hinv hadm.1 ((rawOk_iff o s p).mp hadm.2)
      simpa only [step, ctor_eq, if_true] using h
  | copyCtor this other =>
    simp only [admissible, Bool.and_eq_true] at hadm
    obtain ⟨p, hp⟩ := (liveLoc_iff s other).mp hadm.2
    have h := construct_inv c o s this p ho hw hinv hadm.1
      (handle_facts c o s hinv other p hp).2.2.1
    simpa only [step, copyCtor_eq c s this other p hp] using h
  | moveCtor this other =>
    simp only [admissible, Bool.and_eq_true] at hadm
    obtain ⟨p, hp⟩ := (liveLoc_iff s other).mp hadm.2
    exact ⟨_, by simp only [step, moveCtor_eq s this other p hp],
      moveCtor_inv c o s this other p ho hinv hadm.1 hp⟩
  | dtor this =>
    simp only [admissible] at hadm
    obtain ⟨q, hq⟩ := (liveLoc_iff s this).mp hadm
    have h := replace_inv c o s this nullptr q none ho hw hinv hq (Or.inl rfl)
      (Or.inl ⟨rfl, rfl⟩)
    simpa only [step, dtor_eq c s this q hq, retain_null_bind] using h
  | assign this rhs =>
    simp only [admissible, Bool.and_eq_true] at hadm
    obtain ⟨q, hq⟩ := (liveLoc_iff s this).mp hadm.1
    obtain ⟨p, hp⟩ := (liveLoc_iff s rhs).mp hadm.2
    have h := replace_inv c o s this p q (some p) ho hw hinv hq
      (handle_facts c o s hinv rhs p hp).2.2.1 (Or.inr (Or.inl rfl))
    simpa only [step, IntrusivePtr.assign, State.load, hp, Bind.bind, Except.bind,
      resetTo_eq c s this q p true hq, if_true] using h
  | assignMove this rhs =>
    simp only [admissible, Bool.and_eq_true] at hadm
    obtain ⟨q, hq⟩ := (liveLoc_iff s this).mp hadm.1
    obtain ⟨p, hp⟩ := (liveLoc_iff s rhs).mp hadm.2
    exact assignMove_inv c o s this rhs p q ho hw hinv hq hp
  | assignRaw this p =>
    simp only [admissible, Bool.and_eq_true] at hadm
    obtain ⟨q, hq⟩ := (liveLoc_iff s this).mp hadm.1
    have h := replace_inv c o s this p q (some p) ho hw hinv hq
      ((rawOk_iff o s p).mp hadm.2) (Or.inr (Or.inl rfl))
    simpa only [step, IntrusivePtr.assignRaw, resetTo_eq c s this q p true hq, if_true] using h
  | reset this =>
    simp only [admissible] at hadm
    obtain ⟨q, hq⟩ := (liveLoc_iff s this).mp hadm
    have h := replace_inv c o s this nullptr q (some nullptr) ho hw hinv hq (Or.inl rfl)
      (Or.inr (Or.inl rfl))
    simpa only [step, reset_eq c s this q hq, retain_null_bind] using h
  | resetTo this p addRef =>
    cases addRef with
    | false => simp [admissible] at hadm
    | true =>
      simp only [admissible, Bool.and_eq_true] at hadm
      obtain ⟨q, hq⟩ := (liveLoc_iff s this).mp hadm.1
      have h := replace_inv c o s this p q (some p) ho hw hinv hq
        ((rawOk_iff o s p).mp hadm.2) (Or.inr (Or.inl rfl))
      simpa only [step, resetTo_eq c s this q p true hq, if_true] using h
  | swap a b =>
    simp only [admissible, Bool.and_eq_true] at hadm
    obtain ⟨va, ha⟩ := (liveLoc_iff s a).mp hadm.1
    obtain ⟨vb, hb⟩ := (liveLoc_iff s b).mp hadm.2
    refine ⟨_, ?_, swap_inv c o s a b va vb hinv ha hb⟩
    simp only [step, IntrusivePtr.swap, State.load, ha, hb, Bind.bind, Except.bind, Pure.pure,
      Except.pure, State.store]
  | _ => simp [admissible] at hadm

theorem run_inv (c : Cfg) (o : Addr) (ho : o ≠ nullptr) (hw : o < 2 ^ c.width)
    (ops : List Op) : ∀ s, Inv c o s → admissibleRun c o s ops = true →
      ∃ s2, run c ops s = .ok s2 ∧ Inv c o s2 ∧ (Owned c o s → Owned c o s2) := by
  induction ops with
  | nil =>
    intro s hinv _
    exact ⟨s, rfl, hinv, id⟩
  | cons op ops ih =>
    intro s hinv hadm
    simp only [admissibleRun, Bool.and_eq_true] at hadm
    obtain ⟨s1, e1, hinv1, hown1⟩ := step_inv c o s op ho hw hinv hadm.1
    have hrest := hadm.2
    rw [e1] at hrest
    obtain ⟨s2, e2, hinv2, hown2⟩ := ih s1 hinv1 hrest
    exact ⟨s2, by simp only [run, e1, e2], hinv2, fun h => hown2 (hown1 h)⟩

theorem admissibleRun_take (c : Cfg) (o : Addr) (ops : List Op) :
    ∀ (k : Nat) (s : State), admissibleRun c o s ops = true →
      admissibleRun c o s (ops.take k) = true := by
  induction ops with
  | nil =>
    intro k s _
    simp [admissibleRun]
  | cons op ops ih =>
    intro k s hadm
    cases k with
    | zero => simp [admissibleRun]
    | succ k =>
      simp only [admissibleRun, Bool.and_eq_true, List.take_succ_cons] at hadm ⊢
      refine ⟨hadm.1, ?_⟩
      cases hstep : step c op s with
      | error e => rfl
      | ok s1 =>
        have h2 := hadm.2
        rw [hstep] at h2
        exact ih k s1 h2

/-- A state in which `o` is freshly constructed and every live handle is null satisfies the
invariant, with no holder of `o`. -/
theorem inv_of_fresh (c : Cfg) (o : Addr) (s : State) (ho : o ≠ nullptr)
    (hfresh : s.heap o = RefCounted.ctor)
    (hnull : ∀ a p, s.handles a = some p → validLoc c o a = true ∧ p = nullptr) :
    Inv c o s ∧ holders c s o = 0 := by
  have hzero : holders c s o = 0 := by
    unfold holders
    apply Finset.card_eq_zero.mpr
    apply Finset.filter_eq_empty_iff.mpr
    intro a _ ha
    exact ho (hnull a o ha).2
  refine ⟨⟨fun a p h => ⟨(hnull a p h).1, Or.inl (hnull a p h).2⟩, Or.inl ?_⟩, hzero⟩
  rw [hfresh, hzero]
  exact ⟨rfl, rfl, rfl⟩

/-! ## Preservation of `Backed` -/

theorem retain_effect (c : Cfg) (h : Heap) (p : Addr)
    (hp : p = nullptr ∨ ((h p).alive = true ∧ (h p).refCount + 1 < 2 ^ c.width)) :
    ∃ h1, intrusivePtrRetain c p h = .ok h1 ∧
      ∀ o, o ≠ nullptr → (h1 o).alive = (h o).alive ∧
        (h1 o).refCount = (h o).refCount + (if p = o then 1 else 0) := by
  rcases hp with hp0 | ⟨ha, hlt⟩
  · subst hp0
    refine ⟨h, retain_null c h, fun o ho => ?_⟩
    have : ¬ (nullptr = o) := fun e => ho e.symm
    simp [this]
  · by_cases hp0 : p = nullptr
    · subst hp0
      refine ⟨h, retain_null c h, fun o ho => ?_⟩
      have : ¬ (nullptr = o) := fun e => ho e.symm
      simp [this]
    · refine ⟨_, retain_live c h p hp0 ha, fun o _ => ?_⟩
      by_cases e : p = o
      · subst e
        simp [Nat.mod_eq_of_lt hlt]
      · have e2 : o ≠ p := fun x => e x.symm
        simp [Function.update, e, e2]

theorem release_effect (c : Cfg) (h : Heap) (q : Addr)
    (hq : q = nullptr ∨ ((h q).alive = true ∧ 1 ≤ (h q).refCount ∧
      (h q).refCount < 2 ^ c.width)) :
    ∃ h2, intrusivePtrRelease c q h = .ok h2 ∧
      ∀ o, o ≠ nullptr →
        (q = o → (h2 o).refCount + 1 = (h o).refCount ∧
          (h2 o).alive = decide ((h o).refCount ≠ 1)) ∧
        (q ≠ o → h2 o = h o) := by
  by_cases hq0 : q = nullptr
  · subst hq0
    exact ⟨h, release_null c h, fun o ho => ⟨fun e => absurd e.symm ho, fun _ => rfl⟩⟩
  · rcases hq with e | ⟨ha, h1, h2⟩
    · exact absurd e hq0
    · refine ⟨_, release_live c h q hq0 ha h1 h2, fun o _ => ⟨fun e => ?_, fun e => ?_⟩⟩
      · subst e
        refine ⟨?_, by simp⟩
        simp only [Function.update_same]
        omega
      · have e2 : o ≠ q := fun x => e x.symm
        simp [Function.update, e2]

/-- The joint effect of an optional retain of `p` followed by an optional release of `q` when
every reference is backed: the calls return, and any handle store and any record of detached
references that account for the change are backed again. -/
theorem backed_step (c : Cfg) (loose : Addr → Nat) (s : State) (p q : Addr)
    (hB : Backed c loose s)
    (hp : p = nullptr ∨ ((s.heap p).alive = true ∧ (s.heap p).refCount + 1 < 2 ^ c.width))
    (hq : q = nullptr ∨ ∃ a, s.handles a = some q) :
    ∃ h2, (intrusivePtrRetain c p s.heap).bind (intrusivePtrRelease c q) = .ok h2 ∧
      ∀ (hs2 : Addr → Option Addr) (loose2 : Addr → Nat),
        (∀ a v, hs2 a = some v → a < 2 ^ c.width) →
        (∀ o, o ≠ nullptr →
          holders c { heap := h2, handles := hs2 } o + loose2 o + (if q = o then 1 else 0)
            = holders c s o + loose o + (if p = o then 1 else 0)) →
        Backed c loose2 { heap := h2, handles := hs2 } := by
  obtain ⟨h1, e1, f1⟩ := retain_effect c s.heap p hp
  -- the released object is alive with a positive count
  have hq1 : q = nullptr ∨ ((h1 q).alive = true ∧ 1 ≤ (h1 q).refCount ∧
      (h1 q).refCount < 2 ^ c.width) := by
    by_cases hq0 : q = nullptr
    · exact Or.inl hq0
    · rcases hq with e | ⟨a, ha⟩
      · exact absurd e hq0
      · have hpos := holders_pos c s q a (hB.located a q ha) ha
        obtain ⟨fa, fc⟩ := f1 q hq0
        rcases hB.counted q hq0 with ⟨k1, k2, k3⟩ | ⟨_, k2, _⟩
        · refine Or.inr ⟨by rw [fa]; exact k1, by omega, ?_⟩
          rw [fc]
          by_cases e : p = q
          · rcases hp with hp0 | ⟨_, hlt⟩
            · exact absurd (e ▸ hp0) hq0
            · subst e
              simpa using hlt
          · simpa [e] using k3
        · omega
  obtain ⟨h2, e2, f2⟩ := release_effect c h1 q hq1
  refine ⟨h2, by simp only [e1, Except.bind, e2], fun hs2 loose2 hloc hcount => ⟨hloc, ?_⟩⟩
  intro o ho
  have hc := hcount o ho
  obtain ⟨fa, fc⟩ := f1 o ho
  obtain ⟨g1, g2⟩ := f2 o ho
  have hH : holders c { heap := h2, handles := hs2 } o
      = holders c { heap := s.heap, handles := hs2 } o := rfl
  rcases hB.counted o ho with ⟨k1, k2, k3⟩ | ⟨k1, k2, k3⟩
  · -- `o` was alive
    have hlt1 : (h1 o).refCount < 2 ^ c.width := by
      rw [fc]
      by_cases e : p = o
      · rcases hp with hp0 | ⟨_, hlt⟩
        · exact absurd (e ▸ hp0) ho
        · subst e
          simpa using hlt
      · simpa [e] using k3
    by_cases e : q = o
    · obtain ⟨r1, r2⟩ := g1 e
      simp only [e, if_true] at hc
      by_cases hone : (h1 o).refCount = 1
      · refine Or.inr ⟨?_, ?_, ?_⟩
        · show (h2 o).alive = false
          simp [r2, hone]
        · show holders c { heap := h2, handles := hs2 } o = 0
          omega
        · omega
      · refine Or.inl ⟨?_, ?_, ?_⟩
        · show (h2 o).alive = true
          simp [r2, hone]
        · show (h2 o).refCount = holders c { heap := h2, handles := hs2 } o + loose2 o
          omega
        · show (h2 o).refCount < 2 ^ c.width
          omega
    · have r := g2 e
      simp only [e, if_false, Nat.add_zero] at hc
      refine Or.inl ⟨?_, ?_, ?_⟩
      · show (h2 o).alive = true
        rw [r, fa]
        exact k1
      · show (h2 o).refCount = holders c { heap := h2, handles := hs2 } o + loose2 o
        rw [r]
        omega
      · show (h2 o).refCount < 2 ^ c.width
        rw [r]
        exact hlt1
  · -- `o` was dead: it is neither retained nor released
    have hpo : p ≠ o := by
      rintro rfl
      rcases hp with hp0 | ⟨ha, _⟩
      · exact ho hp0
      · rw [k1] at ha
        exact Bool.noConfusion ha
    have hqo : q ≠ o := by
      rintro rfl
      rcases hq with hq0 | ⟨a, ha⟩
      · exact ho hq0
      · have := holders_pos c s q a (hB.located a q ha) ha
        omega
    simp only [hpo, hqo, if_false, Nat.add_zero] at hc
    refine Or.inr ⟨?_, ?_, by omega⟩
    · show (h2 o).alive = false
      rw [g2 hqo, fa]
      exact k1
    · show holders c { heap := h2, handles := hs2 } o = 0
      omega

theorem located_update (c : Cfg) (hs : Addr → Option Addr) (a : Addr) (v : Option Addr)
    (hloc : ∀ x p, hs x = some p → x < 2 ^ c.width) (ha : a < 2 ^ c.width) :
    ∀ x p, Function.update hs a v x = some p → x < 2 ^ c.width := by
  intro x p hx
  by_cases e : x = a
  · subst e
    exact ha
  · rw [Function.update_noteq e] at hx
    exact hloc x p hx

/-- Operations that leave the heap alone keep every reference backed if the handles and the
detached references still add up. -/
theorem backed_keep (c : Cfg) (loose loose2 : Addr → Nat) (s : State)
    (hs2 : Addr → Option Addr) (hB : Backed c loose s)
    (hloc : ∀ a v, hs2 a = some v → a < 2 ^ c.width)
    (hcount : ∀ o, o ≠ nullptr →
      holders c { heap := s.heap, handles := hs2 } o + loose2 o = holders c s o + loose o) :
    Backed c loose2 { heap := s.heap, handles := hs2 } := by
  obtain ⟨h2, e, f⟩ := backed_step c loose s nullptr nullptr hB (Or.inl rfl) (Or.inl rfl)
  simp only [retain_null, Except.bind, release_null] at e
  have e2 : s.heap = h2 := Except.ok.inj e
  subst e2
  apply f hs2 loose2 hloc
  intro o ho
  have hne : ¬ (nullptr = o) := fun x => ho x.symm
  simp only [hne, if_false, Nat.add_zero]
  exact hcount o ho

/-- An optional retain of `p`, a release of the address held by the handle at `this` (if there
is one), and a write of `v` to that handle (shared by the constructors from an address,
`dtor`, the resets and the copy assignments). -/
theorem backed_write (c : Cfg) (loose loose2 : Addr → Nat) (s : State) (this p : Addr)
    (old v : Option Addr) (hB : Backed c loose s)
    (hthis : s.handles this = old) (hlt : this < 2 ^ c.width)
    (hp : p = nullptr ∨ ((s.heap p).alive = true ∧ (s.heap p).refCount + 1 < 2 ^ c.width))
    (hcond : ∀ o, o ≠ nullptr →
      (if v = some o then 1 else 0) + loose2 o = (if p = o then 1 else 0) + loose o) :
    ∃ s2, ((intrusivePtrRetain c p s.heap).bind
        (intrusivePtrRelease c (old.getD nullptr))).map
          (fun h => State.mk h (Function.update s.handles this v)) = .ok s2 ∧
      Backed c loose2 s2 := by
  have hq : old.getD nullptr = nullptr ∨ ∃ a, s.handles a = some (old.getD nullptr) := by
    cases old with
    | none => exact Or.inl rfl
    | some q => exact Or.inr ⟨this, hthis⟩
  obtain ⟨h2, e, f⟩ := backed_step c loose s p (old.getD nullptr) hB hp hq
  refine ⟨State.mk h2 (Function.update s.handles this v), by rw [e]; rfl, ?_⟩
  apply f _ loose2 (located_update c s.handles this v hB.located hlt)
  intro o ho
  have hu := holders_update c s.heap h2 s.handles o this v hlt
  have hc := hcond o ho
  have hH : holders c { heap := s.heap, handles := s.handles } o = holders c s o := rfl
  rw [hH] at hu
  have hold : (if s.handles this = some o then 1 else 0)
      = (if old.getD nullptr = o then 1 else 0) := by
    rw [hthis]
    cases old with
    | none =>
      have hne : ¬ (nullptr = o) := fun x => ho x.symm
      simp [hne]
    | some q => simp
  rw [hold] at hu
  omega

theorem freeLoc_iff (c : Cfg) (s : State) (a : Addr) :
    freeLoc c s a = true ↔ a ≠ nullptr ∧ a < 2 ^ c.width ∧ s.handles a = none := by
  simp [freeLoc, and_assoc]

theorem canRetain_iff (c : Cfg) (s : State) (p : Addr) :
    canRetain c s p = true ↔
      p = nullptr ∨ ((s.heap p).alive = true ∧ (s.heap p).refCount + 1 < 2 ^ c.width) := by
  simp [canRetain]

theorem canRetainHeld_iff (c : Cfg) (s : State) (a : Addr) :
    canRetainHeld c s a = true ↔ ∃ p, s.handles a = some p ∧ canRetain c s p = true := by
  unfold canRetainHeld
  cases h : s.handles a with
  | none => simp
  | some p => simp

theorem canAdopt_iff (loose : Addr → Nat) (p : Addr) :
    canAdopt loose p = true ↔ p = nullptr ∨ 1 ≤ loose p := by
  simp [canAdopt]

theorem castCopy_eq (c : Cfg) (s : State) (ret iptr p : Addr) (h : s.handles iptr = some p) :
    (do let q ← IntrusivePtr.get iptr s; IntrusivePtr.ctor c ret q true s) =
      (intrusivePtrRetain c p s.heap).map
        (fun h => State.mk h (Function.update s.handles ret (some p))) := by
  simp only [IntrusivePtr.get, State.load, h, Bind.bind, Except.bind, ctor_eq, if_true]

theorem castMove_eq (c : Cfg) (s : State) (ret iptr p : Addr) (h : s.handles iptr = some p) :
    (do let r ← IntrusivePtr.detach iptr s; IntrusivePtr.ctor c ret r.1 false r.2) =
      .ok (State.mk s.heap
        (Function.update (Function.update s.handles iptr (some nullptr)) ret (some p))) := by
  simp only [detach_eq s iptr p h, Bind.bind, Except.bind, ctor_eq, Bool.false_eq_true,
    if_false, Except.map]

/-- A new handle constructed in free storage with a retain of the address it stores. -/
theorem backed_new_retained (c : Cfg) (loose : Addr → Nat) (s : State) (this p : Addr)
    (hB : Backed c loose s) (hfree : freeLoc c s this = true)
    (hp : canRetain c s p = true) :
    ∃ s2, (intrusivePtrRetain c p s.heap).map
        (fun h => State.mk h (Function.update s.handles this (some p))) = .ok s2 ∧
      Backed c loose s2 := by
  obtain ⟨_, hlt, hnone⟩ := (freeLoc_iff c s this).mp hfree
  have h := backed_write c loose loose s this p none (some p) hB hnone hlt
    ((canRetain_iff c s p).mp hp) (fun o _ => by simp)
  simpa only [Option.getD_none, bind_release_null] using h

/-- A new handle constructed in free storage without any retain. -/
theorem backed_new_adopted (c : Cfg) (loose loose2 : Addr → Nat) (s : State) (this p : Addr)
    (hB : Backed c loose s) (hfree : freeLoc c s this = true)
    (hcond : ∀ o, o ≠ nullptr → (if p = o then 1 else 0) + loose2 o = loose o) :
    Backed c loose2 (State.mk s.heap (Function.update s.handles this (some p))) := by
  obtain ⟨_, hlt, hnone⟩ := (freeLoc_iff c s this).mp hfree
  apply backed_keep c loose loose2 s _ hB (located_update c s.handles this _ hB.located hlt)
  intro o ho
  have hu := holders_update c s.heap s.heap s.handles o this (some p) hlt
  have hc := hcond o ho
  have hH : holders c { heap := s.heap, handles := s.handles } o = holders c s o := rfl
  simp only [hnone, Option.some.injEq, reduceCtorEq, if_false, Nat.add_zero, hH] at hu
  omega

/-- A new handle constructed in free storage from the address detached from `other`. -/
theorem backed_new_moved (c : Cfg) (loose : Addr → Nat) (s : State) (this other p : Addr)
    (hB : Backed c loose s) (hfree : freeLoc c s this = true)
    (hother : s.handles other = some p) :
    Backed c loose (State.mk s.heap
      (Function.update (Function.update s.handles other (some nullptr)) this (some p))) := by
  obtain ⟨_, hlt, hnone⟩ := (freeLoc_iff c s this).mp hfree
  have hlto := hB.located other p hother
  have hne : this ≠ other := by
    rintro rfl
    rw [hnone] at hother
    exact Option.noConfusion hother
  apply backed_keep c loose loose s _ hB
    (located_update c _ this _ (located_update c s.handles other _ hB.located hlto) hlt)
  intro o ho
  have ho2 : ¬ (nullptr = o) := fun e => ho e.symm
  have h1 := holders_update c s.heap s.heap s.handles o other (some nullptr) hlto
  have h2 := holders_update c s.heap s.heap
    (Function.update s.handles other (some nullptr)) o this (some p) hlt
  have hH : holders c { heap := s.heap, handles := s.handles } o = holders c s o := rfl
  simp only [Function.update_noteq hne, hnone, hother, Option.some.injEq, ho2, if_false,
    reduceCtorEq, Nat.add_zero, hH] at h1 h2
  omega

/-- A release of the address held by the live handle at `this`, after an optional retain of
`p`, followed by a write of `v` to the handle. -/
theorem backed_release_write (c : Cfg) (loose loose2 : Addr → Nat) (s : State)
    (this p q : Addr) (v : Option Addr) (hB : Backed c loose s)
    (hthis : s.handles this = some q)
    (hp : p = nullptr ∨ ((s.heap p).alive = true ∧ (s.heap p).refCount + 1 < 2 ^ c.width))
    (hcond : ∀ o, o ≠ nullptr →
      (if v = some o then 1 else 0) + loose2 o = (if p = o then 1 else 0) + loose o) :
    ∃ s2, ((intrusivePtrRetain c p s.heap).bind (intrusivePtrRelease c q)).map
          (fun h => State.mk h (Function.update s.handles this v)) = .ok s2 ∧
      Backed c loose2 s2 := by
  have h := backed_write c loose loose2 s this p (some q) v hB hthis
    (hB.located this q hthis) hp hcond
  simpa only [Option.getD_some] using h

theorem backed_swap (c : Cfg) (loose : Addr → Nat) (s : State) (a b va vb : Addr)
    (hB : Backed c loose s) (ha : s.handles a = some va) (hb : s.handles b = some vb) :
    Backed c loose (State.mk s.heap
      (Function.update (Function.update s.handles a (some vb)) b (some va))) := by
  have hlta := hB.located a va ha
  have hltb := hB.located b vb hb
  apply backed_keep c loose loose s _ hB
    (located_update c _ b _ (located_update c s.handles a _ hB.located hlta) hltb)
  intro o _
  have h1 := holders_update c s.heap s.heap s.handles o a (some vb) hlta
  have h2 := holders_update c s.heap s.heap
    (Function.update s.handles a (some vb)) o b (some va) hltb
  have hH : holders c { heap := s.heap, handles := s.handles } o = holders c s o := rfl
  by_cases hab : b = a
  · subst hab
    have e : va = vb := Option.some.inj (ha.symm.trans hb)
    subst e
    simp only [Function.update_same, ha, Option.some.injEq, hH] at h1 h2
    omega
  · simp only [Function.update_noteq hab, ha, hb, Option.some.injEq, hH] at h1 h2
    omega

theorem backed_detach (c : Cfg) (loose : Addr → Nat) (s : State) (this p : Addr)
    (hB : Backed c loose s) (hthis : s.handles this = some p) :
    Backed c (Function.update loose p (loose p + 1))
      (State.mk s.heap (Function.update s.handles this (some nullptr))) := by
  have hlt := hB.located this p hthis
  apply backed_keep c loose _ s _ hB (located_update c s.handles this _ hB.located hlt)
  intro o ho
  have ho2 : ¬ (nullptr = o) := fun e => ho e.symm
  have hu := holders_update c s.heap s.heap s.handles o this (some nullptr) hlt
  have hH : holders c { heap := s.heap, handles := s.handles } o = holders c s o := rfl
  simp only [hthis, Option.some.injEq, ho2, if_false, Nat.add_zero, hH] at hu
  by_cases e : p = o
  · subst e
    simp only [if_true, Function.update_same] at hu ⊢
    omega
  · have e2 : o ≠ p := fun x => e x.symm
    simp only [e, if_false, Nat.add_zero, Function.update_noteq e2] at hu ⊢
    omega

theorem backed_assignMove (c : Cfg) (loose : Addr → Nat) (s : State) (this rhs p q : Addr)
    (hB : Backed c loose s) (hthis : s.handles this = some q)
    (hrhs : s.handles rhs = some p) :
    ∃ s2, IntrusivePtr.assignMove c this rhs s = .ok s2 ∧ Backed c loose s2 := by
  have hltt := hB.located this q hthis
  have hltr := hB.located rhs p hrhs
  simp only [IntrusivePtr.assignMove, detach_eq s rhs p hrhs, Bind.bind, Except.bind]
  by_cases e : this = rhs
  · subst e
    rw [resetTo_eq c _ this nullptr p false (by simp)]
    simp only [Bool.false_eq_true, if_false, Except.bind, release_null, Except.map,
      Function.update_idem]
    refine ⟨_, rfl, ?_⟩
    have hs : Function.update s.handles this (some p) = s.handles :=
      Function.update_eq_self_iff.mpr hrhs.symm
    rw [hs]
    exact hB
  · rw [resetTo_eq c _ this q p false (by simp [Function.update_noteq e, hthis])]
    simp only [Bool.false_eq_true, if_false, Except.bind]
    obtain ⟨h2, e2, hfin⟩ := backed_step c loose s nullptr q hB (Or.inl rfl)
      (Or.inr ⟨this, hthis⟩)
    rw [retain_null_bind] at e2
    simp only [e2, Except.map]
    refine ⟨_, rfl, ?_⟩
    apply hfin _ loose
      (located_update c _ this _ (located_update c s.handles rhs _ hB.located hltr) hltt)
    intro o ho
    have ho2 : ¬ (nullptr = o) := fun x => ho x.symm
    have h1 := holders_update c s.heap h2 s.handles o rhs (some nullptr) hltr
    have h3 := holders_update c h2 h2
      (Function.update s.handles rhs (some nullptr)) o this (some p) hltt
    have hH : holders c { heap := s.heap, handles := s.handles } o = holders c s o := rfl
    simp only [Function.update_noteq e, hthis, hrhs, Option.some.injEq, ho2, if_false,
      Nat.add_zero, hH] at h1 h3 ⊢
    omega

theorem loose_use (loose : Addr → Nat) (p : Addr) (hp : canAdopt loose p = true) :
    ∀ o, o ≠ nullptr →
      (if p = o then 1 else 0) + (Function.update loose p (loose p - 1)) o = loose o := by
  intro o ho
  by_cases e : p = o
  · subst e
    have h1 : 1 ≤ loose p := by
      rcases (canAdopt_iff loose p).mp hp with h | h
      · exact absurd h ho
      · exact h
    simp only [if_true, Function.update_same]
    omega
  · have e2 : o ≠ p := fun x => e x.symm
    simp [e, Function.update_noteq e2]

/-- Every permitted operation returns and keeps every reference backed. -/
theorem step_backed (c : Cfg) (loose : Addr → Nat) (s : State) (op : Op)
    (hB : Backed c loose s) (hperm : permitted c loose s op = true) :
    ∃ s2, step c op s = .ok s2 ∧ Backed c (looseAfter loose s op) s2 := by
  cases op with
  | ctorEmpty this =>
    simp only [permitted] at hperm
    refine ⟨_, rfl, backed_new_adopted c loose loose s this nullptr hB hperm (fun o ho => ?_)⟩
    have : ¬ (nullptr = o) := fun e => ho e.symm
    simp [this]
  | ctor this p addRef =>
    cases addRef with
    | true =>
      simp only [permitted, Bool.and_eq_true] at hperm
      have h := backed_new_retained c loose s this p hB hperm.1 hperm.2
      simpa only [step, ctor_eq, if_true, looseAfter] using h
    | false =>
      simp only [permitted, Bool.and_eq_true] at hperm
      refine ⟨State.mk s.heap (Function.update s.handles this (some p)), ?_,
        backed_new_adopted c loose _ s this p hB hperm.1 (loose_use loose p hperm.2)⟩
      simp only [step, ctor_eq, Bool.false_eq_true, if_false, Except.map]
  | copyCtor this other =>
    simp only [permitted, Bool.and_eq_true] at hperm
    obtain ⟨p, hp, hr⟩ := (canRetainHeld_iff c s other).mp hperm.2
    have h := backed_new_retained c loose s this p hB hperm.1 hr
    simpa only [step, copyCtor_eq c s this other p hp, looseAfter] using h
  | moveCtor this other =>
    simp only [permitted, Bool.and_eq_true] at hperm
    obtain ⟨p, hp⟩ := (liveLoc_iff s other).mp hperm.2
    exact ⟨_, by simp only [step, moveCtor_eq s this other p hp],
      backed_new_moved c loose s this other p hB hperm.1 hp⟩
  | dtor this =>
    simp only [permitted] at hperm
    obtain ⟨q, hq⟩ := (liveLoc_iff s this).mp hperm
    have h := backed_release_write c loose loose s this nullptr q none hB hq (Or.inl rfl)
      (fun o ho => by simp [Ne.symm ho])
    simpa only [step, dtor_eq c s this q hq, retain_null_bind, looseAfter] using h
  | assign this rhs =>
    simp only [permitted, Bool.and_eq_true] at hperm
    obtain ⟨q, hq⟩ := (liveLoc_iff s this).mp hperm.1
    obtain ⟨p, hp, hr⟩ := (canRetainHeld_iff c s rhs).mp hperm.2
    have h := backed_release_write c loose loose s this p q (some p) hB hq
      ((canRetain_iff c s p).mp hr) (fun o _ => by simp)
    simpa only [step, IntrusivePtr.assign, State.load, hp, Bind.bind, Except.bind,
      resetTo_eq c s this q p true hq, if_true, looseAfter] using h
  | assignMove this rhs =>
    simp only [permitted, Bool.and_eq_true] at hperm
    obtain ⟨q, hq⟩ := (liveLoc_iff s this).mp hperm.1
    obtain ⟨p, hp⟩ := (liveLoc_iff s rhs).mp hperm.2
    exact backed_assignMove c loose s this rhs p q hB hq hp
  | assignRaw this p =>
    simp only [permitted, Bool.and_eq_true] at hperm
    obtain ⟨q, hq⟩ := (liveLoc_iff s this).mp hperm.1
    have h := backed_release_write c loose loose s this p q (some p) hB hq
      ((canRetain_iff c s p).mp hperm.2) (fun o _ => by simp)
    simpa only [step, IntrusivePtr.assignRaw, resetTo_eq c s this q p true hq, if_true,
      looseAfter] using h
  | reset this =>
    simp only [permitted] at hperm
    obtain ⟨q, hq⟩ := (liveLoc_iff s this).mp hperm
    have h := backed_release_write c loose loose s this nullptr q (some nullptr) hB hq
      (Or.inl rfl) (fun o _ => by simp)
    simpa only [step, reset_eq c s this q hq, retain_null_bind, looseAfter] using h
  | resetTo this p addRef =>
    cases addRef with
    | true =>
      simp only [permitted, Bool.and_eq_true] at hperm
      obtain ⟨q, hq⟩ := (liveLoc_iff s this).mp hperm.1
      have h := backed_release_write c loose loose s this p q (some p) hB hq
        ((canRetain_iff c s p).mp hperm.2) (fun o _ => by simp)
      simpa only [step, resetTo_eq c s this q p true hq, if_true, looseAfter] using h
    | false =>
      simp only [permitted, Bool.and_eq_true] at hperm
      obtain ⟨q, hq⟩ := (liveLoc_iff s this).mp hperm.1
      have h := backed_release_write c loose (Function.update loose p (loose p - 1)) s this
        nullptr q (some p) hB hq (Or.inl rfl) (fun o ho => by
          have := loose_use loose p hperm.2 o ho
          have hne : ¬ (nullptr = o) := fun e => ho e.symm
          simpa [hne] using this)
      simpa only [step, resetTo_eq c s this q p false hq, Bool.false_eq_true, if_false,
        retain_null_bind, looseAfter, Except.bind] using h
  | detach this =>
    simp only [permitted] at hperm
    obtain ⟨p, hp⟩ := (liveLoc_iff s this).mp hperm
    refine ⟨State.mk s.heap (Function.update s.handles this (some nullptr)), ?_, ?_⟩
    · simp only [step, detach_eq s this p hp, Except.map]
    · have h := backed_detach c loose s this p hB hp
      simpa only [looseAfter, hp] using h
  | swap a b =>
    simp only [permitted, Bool.and_eq_true] at hperm
    obtain ⟨va, ha⟩ := (liveLoc_iff s a).mp hperm.1
    obtain ⟨vb, hb⟩ := (liveLoc_iff s b).mp hperm.2
    refine ⟨_, ?_, backed_swap c loose s a b va vb hB ha hb⟩
    simp only [step, IntrusivePtr.swap, State.load, ha, hb, Bind.bind, Except.bind, Pure.pure,
      Except.pure, State.store]
  | convert ret this =>
    simp only [permitted, Bool.and_eq_true] at hperm
    obtain ⟨p, hp, hr⟩ := (canRetainHeld_iff c s this).mp hperm.2
    have h := backed_new_retained c loose s ret p hB hperm.1 hr
    have key := castCopy_eq c s ret this p hp
    simpa only [step, IntrusivePtr.convert, ← key, IntrusivePtr.get, looseAfter] using h
  | convertMove ret this =>
    simp only [permitted, Bool.and_eq_true] at hperm
    obtain ⟨p, hp⟩ := (liveLoc_iff s this).mp hperm.2
    exact ⟨_, castMove_eq c s ret this p hp, backed_new_moved c loose s ret this p hB hperm.1 hp⟩
  | staticCast ret iptr =>
    simp only [permitted, Bool.and_eq_true] at hperm
    obtain ⟨p, hp, hr⟩ := (canRetainHeld_iff c s iptr).mp hperm.2
    have h := backed_new_retained c loose s ret p hB hperm.1 hr
    rw [← castCopy_eq c s ret iptr p hp] at h
    exact h
  | staticCastMove ret iptr =>
    simp only [permitted, Bool.and_eq_true] at hperm
    obtain ⟨p, hp⟩ := (liveLoc_iff s iptr).mp hperm.2
    exact ⟨_, castMove_eq c s ret iptr p hp, backed_new_moved c loose s ret iptr p hB hperm.1 hp⟩
  | constCast ret iptr =>
    simp only [permitted, Bool.and_eq_true] at hperm
    obtain ⟨p, hp, hr⟩ := (canRetainHeld_iff c s iptr).mp hperm.2
    have h := backed_new_retained c loose s ret p hB hperm.1 hr
    rw [← castCopy_eq c s ret iptr p hp] at h
    exact h
  | reinterpretCast ret iptr =>
    simp only [permitted, Bool.and_eq_true] at hperm
    obtain ⟨p, hp, hr⟩ := (canRetainHeld_iff c s iptr).mp hperm.2
    have h := backed_new_retained c loose s ret p hB hperm.1 hr
    rw [← castCopy_eq c s ret iptr p hp] at h
    exact h
  | reinterpretCastMove ret iptr =>
    simp only [permitted, Bool.and_eq_true] at hperm
    obtain ⟨p, hp⟩ := (liveLoc_iff s iptr).mp hperm.2
    exact ⟨_, castMove_eq c s ret iptr p hp, backed_new_moved c loose s ret iptr p hB hperm.1 hp⟩

theorem run_backed (c : Cfg) (ops : List Op) :
    ∀ (loose : Addr → Nat) (s : State), Backed c loose s → permittedRun c loose s ops = true →
      ∃ s2 loose2, run c ops s = .ok s2 ∧ Backed c loose2 s2 := by
  induction ops with
  | nil =>
    intro loose s hB _
    exact ⟨s, loose, rfl, hB⟩
  | cons op ops ih =>
    intro loose s hB hperm
    simp only [permittedRun, Bool.and_eq_true] at hperm
    obtain ⟨s1, e1, hB1⟩ := step_backed c loose s op hB hperm.1
    have hrest := hperm.2
    rw [e1] at hrest
    obtain ⟨s2, loose2, e2, hB2⟩ := ih _ s1 hB1 hrest
    exact ⟨s2, loose2, by simp only [run, e1, e2], hB2⟩

theorem permittedRun_take (c : Cfg) (ops : List Op) :
    ∀ (k : Nat) (loose : Addr → Nat) (s : State), permittedRun c loose s ops = true →
      permittedRun c loose s (ops.take k) = true := by
  induction ops with
  | nil =>
    intro k loose s _
    simp [permittedRun]
  | cons op ops ih =>
    intro k loose s hperm
    cases k with
    | zero => simp [permittedRun]
    | succ k =>
      simp only [permittedRun, Bool.and_eq_true, List.take_succ_cons] at hperm ⊢
      refine ⟨hperm.1, ?_⟩
      cases hstep : step c op s with
      | error e => rfl
      | ok s1 =>
        have h2 := hperm.2
        rw [hstep] at h2
        exact ih k _ s1 h2

/-- Without handles and with every live object at count 0, every reference is backed. -/
theorem backed_of_fresh (c : Cfg) (s : State) (hnone : ∀ a, s.handles a = none)
    (hfresh : ∀ o, (s.heap o).alive = true → (s.heap o).refCount = 0) :
    Backed c (fun _ => 0) s := by
  have hzero : ∀ o, holders c s o = 0 := by
    intro o
    unfold holders
    apply Finset.card_eq_zero.mpr
    apply Finset.filter_eq_empty_iff.mpr
    intro a _ ha
    rw [hnone a] at ha
    exact Option.noConfusion ha
  refine ⟨fun a p h => ?_, fun o _ => ?_⟩
  · rw [hnone a] at h
    exact Option.noConfusion h
  · cases hal : (s.heap o).alive with
    | true =>
      refine Or.inl ⟨rfl, ?_, ?_⟩
      · rw [hfresh o hal, hzero o]
      · rw [hfresh o hal]
        exact Nat.two_pow_pos _
    | false => exact Or.inr ⟨rfl, hzero o, rfl⟩

/-- One round of `leakOnce` adds one reference and leaves no handle behind. -/
theorem run_leakOnce (c : Cfg) (o k : Nat) (rest : List Op) (ho : o ≠ nullptr)
    (hk : k + 1 < 2 ^ c.width) :
    run c (leakOnce o ++ rest) { heap := heapAt o k, handles := noHandles }
      = run c rest { heap := heapAt o (k + 1), handles := noHandles } := by
  have ha : ((heapAt o k) o).alive = true := by simp [heapAt]
  have hheap : Function.update (heapAt o k) o
      { (heapAt o k) o with refCount := (((heapAt o k) o).refCount + 1) % 2 ^ c.width }
        = heapAt o (k + 1) := by
    funext a
    by_cases e : a = o
    · subst e
      simp [heapAt, Nat.mod_eq_of_lt hk]
    · simp [Function.update, heapAt, e]
  have hhs : Function.update (Function.update (Function.update noHandles 8 (some o)) 8
      (some nullptr)) 8 none = noHandles := by
    funext a
    by_cases e : a = 8
    · subst e
      simp [noHandles]
    · simp [Function.update, e]
  have e1 : step c (.ctor 8 o true) { heap := heapAt o k, handles := noHandles }
      = .ok { heap := heapAt o (k + 1), handles := Function.update noHandles 8 (some o) } := by
    simp only [step, ctor_eq, if_true, retain_live c (heapAt o k) o ho ha, Except.map, hheap]
  have e2 : step c (.detach 8)
      { heap := heapAt o (k + 1), handles := Function.update noHandles 8 (some o) }
      = .ok { heap := heapAt o (k + 1),
              handles := Function.update (Function.update noHandles 8 (some o)) 8
                (some nullptr) } := by
    have h8 : (Function.update noHandles 8 (some o)) 8 = some o := by simp
    have hd := detach_eq (State.mk (heapAt o (k + 1)) (Function.update noHandles 8 (some o)))
      8 o h8
    simp only [step, hd, Except.map]
  have e3 : step c (.dtor 8)
      { heap := heapAt o (k + 1),
        handles := Function.update (Function.update noHandles 8 (some o)) 8 (some nullptr) }
      = .ok { heap := heapAt o (k + 1), handles := noHandles } := by
    have h8 : (Function.update (Function.update noHandles 8 (some o)) 8 (some nullptr)) 8
        = some nullptr := by simp
    have hd := dtor_eq c (State.mk (heapAt o (k + 1))
      (Function.update (Function.update noHandles 8 (some o)) 8 (some nullptr))) 8 nullptr h8
    simp only [step, hd, release_null, Except.map, hhs]
  have hl : leakOnce o ++ rest = Op.ctor 8 o true :: Op.detach 8 :: Op.dtor 8 :: rest := rfl
  rw [hl]
  simp only [run, e1, e2, e3]

/-- Running `leakLoop o n` from a state without handles adds `n` references to `o`, as long as
the count does not wrap. -/
theorem run_leakLoop (c : Cfg) (o : Nat) (rest : List Op) (ho : o ≠ nullptr) :
    ∀ (n k : Nat), k + n < 2 ^ c.width →
      run c (leakLoop o n ++ rest) { heap := heapAt o k, handles := noHandles }
        = run c rest { heap := heapAt o (k + n), handles := noHandles } := by
  intro n
  induction n with
  | zero =>
    intro k _
    simp [leakLoop]
  | succ n ih =>
    intro k hk
    have h1 : leakLoop o (n + 1) ++ rest = leakOnce o ++ (leakLoop o n ++ rest) := by
      simp [leakLoop]
    rw [h1, run_leakOnce c o k _ ho (by omega), ih (k + 1) (by omega)]
    have e : k + 1 + n = k + (n + 1) := by omega
    rw [e]

/-! ## Destruction at the last handle -/

/-- C1: count invariant.  Start from the freshly created object `o` (count 0, no handles) and
run any finite sequence of admissible handle operations (retaining construction from a raw
address, copy/move construction, copy/move/raw assignment, `reset()`, `reset(p, true)`, `swap`,
destruction; raw addresses are `o`, not yet destroyed, or null; handles live at distinct
machine addresses).  Then every prefix of the sequence runs without fault, and in the state it
reaches, if `o` is still alive its count equals the number of live handles holding `o`
(`holders` misses no handle: every live handle sits at a machine address). -/
theorem count_invariant (c : Cfg) (o : Addr) (ops : List Op) (ho : o ≠ nullptr)
    (hw : o < 2 ^ c.width) (hadm : admissibleRun c o (freshState o) ops = true) (k : Nat) :
    ∃ s, run c (ops.take k) (freshState o) = .ok s ∧
      ((s.heap o).alive = true → (s.heap o).refCount = holders c s o) ∧
      (∀ a p, s.handles a = some p → a < 2 ^ c.width) := by
  have h0 := inv_of_fresh c o (freshState o) ho (by simp [freshState])
    (fun a p h => by simp [freshState] at h)
  obtain ⟨s, e, hinv, _⟩ := run_inv c o ho hw (ops.take k) (freshState o) h0.1
    (admissibleRun_take c o ops k (freshState o) hadm)
  refine ⟨s, e, fun halive => ?_, fun a p h => (handle_facts c o s hinv a p h).2.1⟩
  rcases hinv.counted with ⟨_, h2, _⟩ | ⟨h1, _, _⟩
  · exact h2
  · rw [h1] at halive
    exact Bool.noConfusion halive

/-- Witness for C1: the scenario of the specification, run to its fourth step. -/
theorem count_invariant_witness :
    ((1 : Addr) ≠ nullptr ∧ (1 : Addr) < 2 ^ cfg32.width ∧
      admissibleRun cfg32 1 (freshState 1) scenario = true) ∧
    ∃ s, run cfg32 (scenario.take 4) (freshState 1) = .ok s ∧
      ((s.heap 1).alive = true → (s.heap 1).refCount = holders cfg32 s 1) ∧
      (∀ a p, s.handles a = some p → a < 2 ^ cfg32.width) :=
  ⟨by decide, count_invariant cfg32 1 scenario (by decide) (by decide) (by decide) 4⟩

/-- C3: `release(address)`: for a null address the heap is unchanged; for a non-null address
of a live object whose count is `n ≥ 1` (a value of `std::size_t`), the call returns, the count
becomes `n - 1`, every other object is untouched, and the object is destroyed (exactly one
`delete`) if and only if `n = 1`. -/
theorem release_spec (c : Cfg) (h : Heap) (p : Addr) :
    (p = nullptr → intrusivePtrRelease c p h = .ok h) ∧
    (p ≠ nullptr → (h p).alive = true → 1 ≤ (h p).refCount → (h p).refCount < 2 ^ c.width →
      ∃ h2, intrusivePtrRelease c p h = .ok h2 ∧
        (h2 p).refCount = (h p).refCount - 1 ∧
        (∀ a, a ≠ p → h2 a = h a) ∧
        ((h2 p).alive = false ↔ (h p).refCount = 1) ∧
        ((h2 p).deletes = (h p).deletes + 1 ↔ (h p).refCount = 1) ∧
        ((h2 p).deletes = (h p).deletes ↔ (h p).refCount ≠ 1)) := by
  refine ⟨fun e => by subst e; exact release_null c h, fun hp ha h1 h2 => ?_⟩
  refine ⟨_, release_live c h p hp ha h1 h2, ?_, ?_, ?_, ?_, ?_⟩
  · simp
  · intro a hne
    simp [Function.update, hne]
  · simp
  · by_cases e : (h p).refCount = 1 <;> simp [e]
  · by_cases e : (h p).refCount = 1 <;> simp [e]

/-- Witness for C3: releasing the only reference of a live object at address 2. -/
theorem release_spec_witness :
    (2 : Addr) ≠ nullptr ∧ ((heapAt 2 1) 2).alive = true ∧ 1 ≤ ((heapAt 2 1) 2).refCount ∧
    ∃ h2, intrusivePtrRelease cfg32 2 (heapAt 2 1) = .ok h2 ∧
        (h2 2).refCount = ((heapAt 2 1) 2).refCount - 1 ∧
        (∀ a, a ≠ 2 → h2 a = (heapAt 2 1) a) ∧
        ((h2 2).alive = false ↔ ((heapAt 2 1) 2).refCount = 1) ∧
        ((h2 2).deletes = ((heapAt 2 1) 2).deletes + 1 ↔ ((heapAt 2 1) 2).refCount = 1) ∧
        ((h2 2).deletes = ((heapAt 2 1) 2).deletes ↔ ((heapAt 2 1) 2).refCount ≠ 1) :=
  ⟨by decide, by decide, by decide,
    (release_spec cfg32 (heapAt 2 1) 2).2 (by decide) (by decide) (by decide) (by decide)⟩

/-- C4 (as stated) fails at the top of the counter's range: on a 32-bit build, constructing a
retaining handle over a live object whose count is `2 ^ 32 - 1` leaves the count at `0`,
not at `2 ^ 32`. -/
theorem ctor_count_wraps :
    ∃ s1, IntrusivePtr.ctor cfg32 8 1 true
            { heap := heapAt 1 (2 ^ 32 - 1), handles := noHandles } = .ok s1 ∧
      s1.handles 8 = some 1 ∧
      (s1.heap 1).refCount = 0 ∧
      (s1.heap 1).refCount ≠ ((heapAt 1 (2 ^ 32 - 1)) 1).refCount + 1 :=
  ⟨_, rfl, by decide, by decide, by decide⟩

/-- C4 (amended): `IntrusivePtr(Element* ptr, bool addRef)` always stores `p` in the new handle
and touches no other handle.  With `addRef` and `p` non-null (a live object) the count `n` of
`p`'s object becomes `(n + 1) mod 2 ^ width`, which is `n + 1` whenever `n + 1 < 2 ^ width`,
and nothing else in the heap changes; with `addRef = false` or `p` null the heap is unchanged.
In particular adopting a live object of count 1 with `addRef = false` leaves the count at 1, and
destroying that handle brings the count to 0 and deletes the object exactly once. -/
theorem ctor_spec (c : Cfg) (s : State) (this p : Addr) (addRef : Bool) :
    ((addRef = true → p ≠ nullptr → (s.heap p).alive = true) →
     ∃ s1, IntrusivePtr.ctor c this p addRef s = .ok s1 ∧
      s1.handles this = some p ∧
      (∀ a, a ≠ this → s1.handles a = s.handles a) ∧
      (∀ a, a ≠ p → s1.heap a = s.heap a) ∧
      (s1.heap p).alive = (s.heap p).alive ∧
      (s1.heap p).deletes = (s.heap p).deletes ∧
      (addRef = true ∧ p ≠ nullptr →
        (s1.heap p).refCount = ((s.heap p).refCount + 1) % 2 ^ c.width ∧
        ((s.heap p).refCount + 1 < 2 ^ c.width →
          (s1.heap p).refCount = (s.heap p).refCount + 1)) ∧
      (addRef = false ∨ p = nullptr → s1.heap = s.heap)) ∧
    (p ≠ nullptr → (s.heap p).alive = true → (s.heap p).refCount = 1 → 1 < 2 ^ c.width →
      ∃ s1 s2, IntrusivePtr.ctor c this p false s = .ok s1 ∧
        s1.handles this = some p ∧
        (s1.heap p).refCount = 1 ∧ (s1.heap p).alive = true ∧
        IntrusivePtr.dtor c this s1 = .ok s2 ∧
        s2.handles this = none ∧
        (s2.heap p).refCount = 0 ∧ (s2.heap p).alive = false ∧
        (s2.heap p).deletes = (s.heap p).deletes + 1) := by
  constructor
  · intro hlive
    rw [ctor_eq]
    by_cases hr : addRef = true ∧ p ≠ nullptr
    · obtain ⟨h1, h2⟩ := hr
      subst h1
      simp only [if_true, retain_live c s.heap p h2 (hlive rfl h2), Except.map]
      refine ⟨_, rfl, by simp, fun a ha => by simp [Function.update, ha],
        fun a ha => by simp [Function.update, ha], by simp, by simp, ?_, ?_⟩
      · intro _
        refine ⟨by simp, fun hlt => ?_⟩
        simp [Nat.mod_eq_of_lt hlt]
      · rintro (h | h)
        · exact absurd h (by simp)
        · exact absurd h h2
    · have hh : (if addRef = true then intrusivePtrRetain c p s.heap else .ok s.heap)
          = .ok s.heap := by
        by_cases ha : addRef = true
        · have hp : p = nullptr := by
            by_contra hne
            exact hr ⟨ha, hne⟩
          subst hp
          simp [ha, retain_null]
        · simp [ha]
      rw [hh]
      simp only [Except.map]
      refine ⟨_, rfl, by simp, fun a ha => by simp [Function.update, ha],
        fun a _ => rfl, rfl, rfl, fun h => absurd h hr, fun _ => rfl⟩
  · intro hp ha h1 hw
    have hrel := release_live c s.heap p hp ha (by omega) (by omega)
    refine ⟨{ heap := s.heap, handles := Function.update s.handles this (some p) },
      { heap := Function.update s.heap p
          { alive := decide ((s.heap p).refCount ≠ 1), refCount := (s.heap p).refCount - 1,
            deletes := (s.heap p).deletes + (if (s.heap p).refCount = 1 then 1 else 0) },
        handles := Function.update (Function.update s.handles this (some p)) this none },
      by simp [ctor_eq, Except.map], by simp, h1, ha, ?_, by simp, by simp [h1], by simp [h1],
      by simp [h1]⟩
    rw [dtor_eq c _ this p (by simp)]
    simp only [hrel, Except.map]

/-- Witness for C4 (amended): adopting and retaining a live object of count 1 at address 1. -/
theorem ctor_spec_witness :
    ((1 : Addr) ≠ nullptr ∧ ((heapAt 1 1) 1).alive = true ∧ ((heapAt 1 1) 1).refCount = 1) ∧
    (∃ s1 s2, IntrusivePtr.ctor cfg32 8 1 false
          { heap := heapAt 1 1, handles := noHandles } = .ok s1 ∧
        s1.handles 8 = some 1 ∧
        (s1.heap 1).refCount = 1 ∧ (s1.heap 1).alive = true ∧
        IntrusivePtr.dtor cfg32 8 s1 = .ok s2 ∧
        s2.handles 8 = none ∧
        (s2.heap 1).refCount = 0 ∧ (s2.heap 1).alive = false ∧
        (s2.heap 1).deletes = ((heapAt 1 1) 1).deletes + 1) :=
  ⟨by decide,
    (ctor_spec cfg32 { heap := heapAt 1 1, handles := noHandles } 8 1 false).2
      (by decide) (by decide) (by decide) (by decide)⟩

/-- C5: moves never change the moved object's count.  Move-constructing a handle at `this`
from `src` (holding `p`) returns, leaves `this` holding `p` and `src` null, and leaves the heap
untouched.  Move-assigning `src` (holding `p`) into `d` holding a different address `q` leaves
`d` holding `p`, `src` null and `p`'s object untouched, and the heap is the result of exactly
one release of `q`: nothing happens if `q` is null, and if `q` is a live object of count
`n ≥ 1` its count becomes `n - 1` and it is deleted if and only if `n = 1`. -/
theorem move_spec (c : Cfg) (s : State) (this d src p q : Addr)
    (hsrc : s.handles src = some p) :
    (this ≠ src →
      ∃ s1, IntrusivePtr.moveCtor this src s = .ok s1 ∧
        s1.handles this = some p ∧ s1.handles src = some nullptr ∧
        (∀ a, a ≠ this → a ≠ src → s1.handles a = s.handles a) ∧
        s1.heap = s.heap) ∧
    (s.handles d = some q → q ≠ p →
      (q ≠ nullptr → (s.heap q).alive = true ∧ 1 ≤ (s.heap q).refCount ∧
        (s.heap q).refCount < 2 ^ c.width) →
      ∃ s1, IntrusivePtr.assignMove c d src s = .ok s1 ∧
        s1.handles d = some p ∧ s1.handles src = some nullptr ∧
        (∀ a, a ≠ d → a ≠ src → s1.handles a = s.handles a) ∧
        s1.heap p = s.heap p ∧
        (∀ a, a ≠ q → s1.heap a = s.heap a) ∧
        intrusivePtrRelease c q s.heap = .ok s1.heap ∧
        (q = nullptr → s1.heap = s.heap) ∧
        (q ≠ nullptr →
          (s1.heap q).refCount = (s.heap q).refCount - 1 ∧
          ((s1.heap q).alive = false ↔ (s.heap q).refCount = 1) ∧
          (s1.heap q).deletes = (s.heap q).deletes +
            (if (s.heap q).refCount = 1 then 1 else 0))) := by
  constructor
  · intro hne
    refine ⟨_, moveCtor_eq s this src p hsrc, by simp, ?_, ?_, rfl⟩
    · simp [Function.update, hne, Ne.symm hne]
    · intro a h1 h2
      simp [Function.update, h1, h2]
  · intro hd hqp hq
    have hds : d ≠ src := by
      rintro rfl
      rw [hsrc] at hd
      exact hqp (Option.some.inj hd).symm
    have hd1 : (Function.update s.handles src (some nullptr)) d = some q := by
      simp [Function.update, hds, hd]
    simp only [IntrusivePtr.assignMove, detach_eq s src p hsrc, Bind.bind, Except.bind]
    rw [resetTo_eq c _ d q p false hd1]
    simp only [Bool.false_eq_true, if_false, Except.bind]
    by_cases hq0 : q = nullptr
    · subst hq0
      simp only [release_null, Except.map]
      refine ⟨_, rfl, by simp, ?_, ?_, rfl, fun a _ => rfl, rfl, fun _ => rfl,
        fun h => absurd rfl h⟩
      · simp [Function.update, hds, Ne.symm hds]
      · intro a h1 h2
        simp [Function.update, h1, h2]
    · obtain ⟨ha, h1, h2⟩ := hq hq0
      have hrel := release_live c s.heap q hq0 ha h1 h2
      simp only [hrel, Except.map]
      refine ⟨_, rfl, by simp, ?_, ?_, ?_, ?_, rfl, fun h => absurd h hq0, fun _ => ?_⟩
      · simp [Function.update, hds, Ne.symm hds]
      · intro a h1 h2
        simp [Function.update, h1, h2]
      · simp [Function.update, Ne.symm hqp]
      · intro a hne
        simp [Function.update, hne]
      · refine ⟨by simp, ?_, by simp⟩
        by_cases e : (s.heap q).refCount = 1 <;> simp [e]

/-- Witness for C5: move-assigning a handle holding object 1 into a handle holding the only
reference to object 2. -/
theorem move_spec_witness :
    (twoHandles 8 1 9 2 8 = some 1 ∧ twoHandles 8 1 9 2 9 = some 2) ∧
    ∃ s1, IntrusivePtr.assignMove cfg32 9 8
            { heap := heapAt2 1 1 2 1, handles := twoHandles 8 1 9 2 } = .ok s1 ∧
        s1.handles 9 = some 1 ∧ s1.handles 8 = some nullptr ∧
        (∀ a, a ≠ 9 → a ≠ 8 → s1.handles a = twoHandles 8 1 9 2 a) ∧
        s1.heap 1 = heapAt2 1 1 2 1 1 ∧
        (∀ a, a ≠ 2 → s1.heap a = heapAt2 1 1 2 1 a) ∧
        intrusivePtrRelease cfg32 2 (heapAt2 1 1 2 1) = .ok s1.heap ∧
        ((2 : Addr) = nullptr → s1.heap = heapAt2 1 1 2 1) ∧
        ((2 : Addr) ≠ nullptr →
          (s1.heap 2).refCount = (heapAt2 1 1 2 1 2).refCount - 1 ∧
          ((s1.heap 2).alive = false ↔ (heapAt2 1 1 2 1 2).refCount = 1) ∧
          (s1.heap 2).deletes = (heapAt2 1 1 2 1 2).deletes +
            (if (heapAt2 1 1 2 1 2).refCount = 1 then 1 else 0)) :=
  ⟨by decide,
    (move_spec cfg32 { heap := heapAt2 1 1 2 1, handles := twoHandles 8 1 9 2 } 7 9 8 1 2
      (by decide)).2 (by decide) (by decide) (fun _ => by decide)⟩

/-- C6 (as stated) fails at the top of the counter's range: on a 32-bit build, copying a
handle whose object has count `2 ^ 32 - 1` leaves the count at `0`, not at `2 ^ 32`. -/
theorem copyCtor_count_wraps :
    ∃ s1, IntrusivePtr.copyCtor cfg32 9 8
            { heap := heapAt 1 (2 ^ 32 - 1), handles := oneHandle 8 1 } = .ok s1 ∧
      s1.handles 9 = some 1 ∧ s1.handles 8 = some 1 ∧
      (s1.heap 1).refCount = 0 ∧
      (s1.heap 1).refCount ≠ ((heapAt 1 (2 ^ 32 - 1)) 1).refCount + 1 :=
  ⟨_, rfl, by decide, by decide, by decide, by decide⟩

/-- C6 (amended): copy-constructing a handle at `this` from a different handle `other` holding
`p` returns; the copy holds `p`, `other` still holds `p`, no other handle changes.  If `p` is
null the heap is unchanged.  If `p` is a live object of count `n`, its count becomes
`(n + 1) mod 2 ^ width`, which is `n + 1` whenever `n + 1 < 2 ^ width`; the object is not
deleted and no other object changes. -/
theorem copyCtor_spec (c : Cfg) (s : State) (this other p : Addr)
    (hother : s.handles other = some p) (hne : this ≠ other)
    (hlive : p ≠ nullptr → (s.heap p).alive = true) :
    ∃ s1, IntrusivePtr.copyCtor c this other s = .ok s1 ∧
      s1.handles this = some p ∧ s1.handles other = some p ∧
      (∀ a, a ≠ this → s1.handles a = s.handles a) ∧
      (∀ a, a ≠ p → s1.heap a = s.heap a) ∧
      (p = nullptr → s1.heap = s.heap) ∧
      (p ≠ nullptr →
        (s1.heap p).refCount = ((s.heap p).refCount + 1) % 2 ^ c.width ∧
        ((s.heap p).refCount + 1 < 2 ^ c.width →
          (s1.heap p).refCount = (s.heap p).refCount + 1) ∧
        (s1.heap p).alive = true ∧ (s1.heap p).deletes = (s.heap p).deletes) := by
  rw [copyCtor_eq c s this other p hother]
  by_cases hp : p = nullptr
  · subst hp
    simp only [retain_null, Except.map]
    refine ⟨_, rfl, by simp, ?_, ?_, fun a _ => rfl, fun _ => rfl, fun h => absurd rfl h⟩
    · simp [Function.update, Ne.symm hne, hother]
    · intro a ha
      simp [Function.update, ha]
  · simp only [retain_live c s.heap p hp (hlive hp), Except.map]
    refine ⟨_, rfl, by simp, ?_, ?_, ?_, fun h => absurd h hp, fun _ => ⟨by simp, ?_, ?_, ?_⟩⟩
    · simp [Function.update, Ne.symm hne, hother]
    · intro a ha
      simp [Function.update, ha]
    · intro a ha
      simp [Function.update, ha]
    · intro hlt
      simp [Nat.mod_eq_of_lt hlt]
    · simpa using hlive hp
    · simp

/-- Witness for C6 (amended): copying the only handle of object 1. -/
theorem copyCtor_spec_witness :
    (oneHandle 8 1 8 = some 1 ∧ (9 : Addr) ≠ 8 ∧ ((heapAt 1 1) 1).alive = true) ∧
    ∃ s1, IntrusivePtr.copyCtor cfg32 9 8 { heap := heapAt 1 1, handles := oneHandle 8 1 }
            = .ok s1 ∧
      s1.handles 9 = some 1 ∧ s1.handles 8 = some 1 ∧
      (∀ a, a ≠ 9 → s1.handles a = oneHandle 8 1 a) ∧
      (∀ a, a ≠ 1 → s1.heap a = heapAt 1 1 a) ∧
      ((1 : Addr) = nullptr → s1.heap = heapAt 1 1) ∧
      ((1 : Addr) ≠ nullptr →
        (s1.heap 1).refCount = ((heapAt 1 1 1).refCount + 1) % 2 ^ cfg32.width ∧
        ((heapAt 1 1 1).refCount + 1 < 2 ^ cfg32.width →
          (s1.heap 1).refCount = (heapAt 1 1 1).refCount + 1) ∧
        (s1.heap 1).alive = true ∧ (s1.heap 1).deletes = (heapAt 1 1 1).deletes) :=
  ⟨by decide,
    copyCtor_spec cfg32 { heap := heapAt 1 1, handles := oneHandle 8 1 } 9 8 1
      (by decide) (by decide) (fun _ => by decide)⟩

/-- C7 (as stated) fails at the top of the counter's range when assertions are compiled in: on
a 32-bit build, a handle whose object has count `2 ^ 32 - 1` cannot be assigned to itself; the
retain wraps the count to `0` and the assertion `0 < oldRefCount` of the release fails. -/
theorem self_assign_asserts_at_max :
    IntrusivePtr.assign cfg32 8 8
        { heap := heapAt 1 (2 ^ 32 - 1), handles := oneHandle 8 1 } = .error .assertion ∧
    IntrusivePtr.assignRaw cfg32 8 1
        { heap := heapAt 1 (2 ^ 32 - 1), handles := oneHandle 8 1 } = .error .assertion ∧
    1 ≤ ((heapAt 1 (2 ^ 32 - 1)) 1).refCount ∧ ((heapAt 1 (2 ^ 32 - 1)) 1).alive = true :=
  ⟨rfl, rfl, by decide, by decide⟩

/-- C7 (amended): self-assignment is safe whenever the count can be incremented.  For a handle
`a` holding a live object with count `n`, `1 ≤ n < 2 ^ width - 1` (and also `n = 2 ^ width - 1`
when assertions are compiled out), `a = a`, `a = a.get()` and `a.reset(a.get(), true)` all
return and leave the whole state unchanged: `a` still holds the object, the count is `n`, the
object is not deleted.  For a null handle they return and leave the state unchanged. -/
theorem self_assign_spec (c : Cfg) (s : State) (a p : Addr) (ha : s.handles a = some p)
    (hobj : p ≠ nullptr → (s.heap p).alive = true ∧ 1 ≤ (s.heap p).refCount ∧
      (s.heap p).refCount < 2 ^ c.width ∧
      (c.asserts = true → (s.heap p).refCount + 1 < 2 ^ c.width)) :
    IntrusivePtr.get a s = .ok p ∧
    IntrusivePtr.assign c a a s = .ok s ∧
    IntrusivePtr.assignRaw c a p s = .ok s ∧
    IntrusivePtr.resetTo c a p true s = .ok s := by
  have key : IntrusivePtr.resetTo c a p true s = .ok s := by
    rw [resetTo_eq c s a p p true ha]
    simp only [if_true]
    by_cases hp : p = nullptr
    · subst hp
      simp only [retain_null, Except.bind, release_null, Except.map]
      exact congrArg _ (state_eq s _ _ rfl (by simp [ha]))
    · obtain ⟨h0, h1, h2, h3⟩ := hobj hp
      rw [retain_release_self c s.heap p hp h0 h1 h2 h3]
      simp only [Except.map]
      exact congrArg _ (state_eq s _ _ rfl (by simp [ha]))
  refine ⟨by simp [IntrusivePtr.get, State.load, ha], ?_, key, key⟩
  simp only [IntrusivePtr.assign, State.load, ha, Bind.bind, Except.bind]
  exact key

/-- Witness for C7 (amended): self-assignment of the only handle of an object (count 1). -/
theorem self_assign_spec_witness :
    (oneHandle 8 1 8 = some 1 ∧ ((heapAt 1 1) 1).alive = true ∧
      ((heapAt 1 1) 1).refCount = 1) ∧
    IntrusivePtr.get 8 { heap := heapAt 1 1, handles := oneHandle 8 1 } = .ok 1 ∧
    IntrusivePtr.assign cfg32 8 8 { heap := heapAt 1 1, handles := oneHandle 8 1 }
      = .ok { heap := heapAt 1 1, handles := oneHandle 8 1 } ∧
    IntrusivePtr.assignRaw cfg32 8 1 { heap := heapAt 1 1, handles := oneHandle 8 1 }
      = .ok { heap := heapAt 1 1, handles := oneHandle 8 1 } ∧
    IntrusivePtr.resetTo cfg32 8 1 true { heap := heapAt 1 1, handles := oneHandle 8 1 }
      = .ok { heap := heapAt 1 1, handles := oneHandle 8 1 } :=
  ⟨by decide,
    self_assign_spec cfg32 { heap := heapAt 1 1, handles := oneHandle 8 1 } 8 1 (by decide)
      (fun _ => ⟨by decide, by decide, by decide, fun _ => by decide⟩)⟩

/-- C8 (as stated) fails at the top of the counter's range: on a 32-bit build, resetting a
handle (holding object 2) to object 1 whose count is `2 ^ 32 - 1` leaves object 1 with
count `0`, not `2 ^ 32`. -/
theorem resetTo_count_wraps :
    ∃ s1, IntrusivePtr.resetTo cfg32 8 1 true
            { heap := heapAt2 1 (2 ^ 32 - 1) 2 1, handles := oneHandle 8 2 } = .ok s1 ∧
      s1.handles 8 = some 1 ∧
      (s1.heap 1).refCount = 0 ∧
      (s1.heap 1).refCount ≠ ((heapAt2 1 (2 ^ 32 - 1) 2 1) 1).refCount + 1 :=
  ⟨_, rfl, by decide, by decide, by decide⟩

/-- C8 (amended): for a handle `this` holding `q` (null, or a live object of count at least 1)
and a new address `p ≠ q` (null, or a live object):
`reset(p, true)`, `operator=(Element* p)` and copy-assignment from any handle holding `p` all
return the same state, in which the handle holds `p`, `p`'s object (if any) has been retained
(count `(n + 1) mod 2 ^ width`, which is `n + 1` when that fits), `q`'s object (if any) has
been released (count minus one, deleted iff the count was 1) and nothing else changed; the
heap is obtained by first retaining `p` and then releasing `q`.
`reset(p, false)` does the same but leaves `p`'s object untouched, and `reset()` releases `q`
and leaves the handle null.
The order is retain first, then release, for every new address `r`, equal to `q` or not: the
outcome of `reset(r, addRef)` is the outcome of the retain of `r` (if requested), followed,
only if that returned, by the release of `q` in the heap the retain produced, followed by the
write of `r`.  The order shows when `r = q`: the handle's own target is first retained (count
`n + 1`) and then released back to `n`, so even the only reference (`n = 1`) survives and the
state is returned unchanged, where a release before the retain would delete the object. -/
theorem reset_spec (c : Cfg) (s : State) (this q p : Addr)
    (hthis : s.handles this = some q) (hpq : p ≠ q)
    (hq : q ≠ nullptr → (s.heap q).alive = true ∧ 1 ≤ (s.heap q).refCount ∧
      (s.heap q).refCount < 2 ^ c.width) :
    ((p ≠ nullptr → (s.heap p).alive = true) →
      ∃ h1 s1, intrusivePtrRetain c p s.heap = .ok h1 ∧
        intrusivePtrRelease c q h1 = .ok s1.heap ∧
        IntrusivePtr.resetTo c this p true s = .ok s1 ∧
        IntrusivePtr.assignRaw c this p s = .ok s1 ∧
        (∀ src, s.handles src = some p → IntrusivePtr.assign c this src s = .ok s1) ∧
        s1.handles this = some p ∧
        (∀ a, a ≠ this → s1.handles a = s.handles a) ∧
        (p ≠ nullptr → Retained c s.heap s1.heap p) ∧
        (q ≠ nullptr → Released s.heap s1.heap q) ∧
        (∀ a, a ≠ p → a ≠ q → s1.heap a = s.heap a)) ∧
    (∃ s1, IntrusivePtr.resetTo c this p false s = .ok s1 ∧
        intrusivePtrRelease c q s.heap = .ok s1.heap ∧
        s1.handles this = some p ∧
        (∀ a, a ≠ this → s1.handles a = s.handles a) ∧
        s1.heap p = s.heap p ∧
        (q ≠ nullptr → Released s.heap s1.heap q) ∧
        (∀ a, a ≠ q → s1.heap a = s.heap a)) ∧
    (∃ s1, IntrusivePtr.reset c this s = .ok s1 ∧
        intrusivePtrRelease c q s.heap = .ok s1.heap ∧
        s1.handles this = some nullptr ∧
        (∀ a, a ≠ this → s1.handles a = s.handles a) ∧
        (q ≠ nullptr → Released s.heap s1.heap q) ∧
        (∀ a, a ≠ q → s1.heap a = s.heap a)) ∧
    (∀ (r : Addr) (addRef : Bool),
        IntrusivePtr.resetTo c this r addRef s =
          ((if addRef then intrusivePtrRetain c r s.heap else .ok s.heap).bind
            (fun h1 => intrusivePtrRelease c q h1)).map
            (fun h2 => State.mk h2 (Function.update s.handles this (some r)))) ∧
    (q ≠ nullptr → (c.asserts = true → (s.heap q).refCount + 1 < 2 ^ c.width) →
      ∃ h1, intrusivePtrRetain c q s.heap = .ok h1 ∧
        (h1 q).refCount = ((s.heap q).refCount + 1) % 2 ^ c.width ∧
        (h1 q).alive = true ∧
        intrusivePtrRelease c q h1 = .ok s.heap ∧
        IntrusivePtr.resetTo c this q true s = .ok s) := by
  -- one release of `q` from a heap `h` that agrees with `s.heap` at `q`
  have rel : ∀ h : Heap, h q = s.heap q →
      ∃ h2, intrusivePtrRelease c q h = .ok h2 ∧
        (q ≠ nullptr → Released s.heap h2 q) ∧ (∀ a, a ≠ q → h2 a = h a) := by
    intro h hh
    by_cases hq0 : q = nullptr
    · subst hq0
      exact ⟨h, release_null c h, fun x => absurd rfl x, fun a _ => rfl⟩
    · obtain ⟨ha, h1, h2⟩ := hq hq0
      refine ⟨_, release_live c h q hq0 (hh ▸ ha) (hh ▸ h1) (hh ▸ h2), fun _ => ?_, ?_⟩
      · simp [Released, hh]
      · intro a hne
        simp [Function.update, hne]
  refine ⟨fun hp => ?_, ?_, ?_, fun r addRef => resetTo_eq c s this q r addRef hthis,
    fun hq0 hfit => ?_⟩
  · -- retaining forms
    have ret : ∃ h1, intrusivePtrRetain c p s.heap = .ok h1 ∧
        (p ≠ nullptr → Retained c s.heap h1 p) ∧ (∀ a, a ≠ p → h1 a = s.heap a) := by
      by_cases hp0 : p = nullptr
      · subst hp0
        exact ⟨s.heap, retain_null c s.heap, fun x => absurd rfl x, fun a _ => rfl⟩
      · refine ⟨_, retain_live c s.heap p hp0 (hp hp0),
          fun _ => retained_of_retain_live c s.heap p, ?_⟩
        intro a hne
        simp [Function.update, hne]
    obtain ⟨h1, e1, r1, f1⟩ := ret
    obtain ⟨h2, e2, r2, f2⟩ := rel h1 (f1 q (Ne.symm hpq))
    have key : IntrusivePtr.resetTo c this p true s =
        .ok { heap := h2, handles := Function.update s.handles this (some p) } := by
      rw [resetTo_eq c s this q p true hthis]
      simp only [if_true, e1, Except.bind, e2, Except.map]
    refine ⟨h1, { heap := h2, handles := Function.update s.handles this (some p) },
      e1, e2, key, key, ?_, by simp, ?_, ?_, r2, ?_⟩
    · intro src hsrc
      simp only [IntrusivePtr.assign, State.load, hsrc, Bind.bind, Except.bind]
      exact key
    · intro a hne
      simp [Function.update, hne]
    · intro hp0
      have := r1 hp0
      have e : h2 p = h1 p := f2 p hpq
      simpa [Retained, e] using this
    · intro a hap haq
      show h2 a = s.heap a
      rw [f2 a haq, f1 a hap]
  · obtain ⟨h2, e2, r2, f2⟩ := rel s.heap rfl
    refine ⟨{ heap := h2, handles := Function.update s.handles this (some p) },
      ?_, e2, by simp, ?_, f2 p hpq, r2, f2⟩
    · rw [resetTo_eq c s this q p false hthis]
      simp only [Bool.false_eq_true, if_false, Except.bind, e2, Except.map]
    · intro a hne
      simp [Function.update, hne]
  · obtain ⟨h2, e2, r2, f2⟩ := rel s.heap rfl
    refine ⟨{ heap := h2, handles := Function.update s.handles this (some nullptr) },
      ?_, e2, by simp, ?_, r2, f2⟩
    · rw [reset_eq c s this q hthis]
      simp only [e2, Except.map]
    · intro a hne
      simp [Function.update, hne]
  · -- the handle's own target: retained first, then released
    obtain ⟨ha, h1, h2⟩ := hq hq0
    have hpair := retain_release_self c s.heap q hq0 ha h1 h2 hfit
    have hret := retain_live c s.heap q hq0 ha
    rw [hret] at hpair
    simp only [Except.bind] at hpair
    refine ⟨_, hret, by simp, by simp [ha], hpair, ?_⟩
    rw [resetTo_eq c s this q q true hthis]
    simp only [if_true, hret, Except.bind, hpair, Except.map]
    exact congrArg _ (state_eq s _ _ rfl (Function.update_eq_self_iff.mpr hthis.symm))

/-- Witness for C8 (amended): a handle holding the only reference to object 2 is reset to
object 1, and is reset to object 2 itself (which survives, retained before released). -/
theorem reset_spec_witness :
    (oneHandle 8 2 8 = some 2 ∧ (1 : Addr) ≠ 2 ∧ ((heapAt2 1 1 2 1) 2).alive = true ∧
      ((heapAt2 1 1 2 1) 1).alive = true) ∧
    (∃ h1 s1, intrusivePtrRetain cfg32 1 (heapAt2 1 1 2 1) = .ok h1 ∧
        intrusivePtrRelease cfg32 2 h1 = .ok s1.heap ∧
        IntrusivePtr.resetTo cfg32 8 1 true
          { heap := heapAt2 1 1 2 1, handles := oneHandle 8 2 } = .ok s1 ∧
        IntrusivePtr.assignRaw cfg32 8 1
          { heap := heapAt2 1 1 2 1, handles := oneHandle 8 2 } = .ok s1 ∧
        (∀ src, oneHandle 8 2 src = some 1 → IntrusivePtr.assign cfg32 8 src
          { heap := heapAt2 1 1 2 1, handles := oneHandle 8 2 } = .ok s1) ∧
        s1.handles 8 = some 1 ∧
        (∀ a, a ≠ 8 → s1.handles a = oneHandle 8 2 a) ∧
        ((1 : Addr) ≠ nullptr → Retained cfg32 (heapAt2 1 1 2 1) s1.heap 1) ∧
        ((2 : Addr) ≠ nullptr → Released (heapAt2 1 1 2 1) s1.heap 2) ∧
        (∀ a, a ≠ 1 → a ≠ 2 → s1.heap a = heapAt2 1 1 2 1 a)) ∧
    (∃ h1, intrusivePtrRetain cfg32 2 (heapAt2 1 1 2 1) = .ok h1 ∧
        (h1 2).refCount = (((heapAt2 1 1 2 1) 2).refCount + 1) % 2 ^ cfg32.width ∧
        (h1 2).alive = true ∧
        intrusivePtrRelease cfg32 2 h1 = .ok (heapAt2 1 1 2 1) ∧
        IntrusivePtr.resetTo cfg32 8 2 true
          { heap := heapAt2 1 1 2 1, handles := oneHandle 8 2 }
          = .ok { heap := heapAt2 1 1 2 1, handles := oneHandle 8 2 }) :=
  ⟨by decide,
    (reset_spec cfg32 { heap := heapAt2 1 1 2 1, handles := oneHandle 8 2 } 8 2 1
      (by decide) (by decide) (fun _ => by decide)).1 (fun _ => by decide),
    (reset_spec cfg32 { heap := heapAt2 1 1 2 1, handles := oneHandle 8 2 } 8 2 1
      (by decide) (by decide) (fun _ => by decide)).2.2.2.2 (by decide) (fun _ => by decide)⟩

/-- C9: `detach()` on a handle holding `p` returns `p`, leaves the handle null and the heap
untouched; constructing a handle at `ret` from the returned address with `addRef = false`
then returns, yields a handle holding `p`, and leaves the heap equal to the heap before the
detach.  Re-adopting into the detached handle itself restores the whole state. -/
theorem detach_adopt_roundtrip (c : Cfg) (s : State) (this ret p : Addr)
    (hthis : s.handles this = some p) :
    ∃ s1 s2, IntrusivePtr.detach this s = .ok (p, s1) ∧
      s1.handles this = some nullptr ∧
      (∀ a, a ≠ this → s1.handles a = s.handles a) ∧
      s1.heap = s.heap ∧
      IntrusivePtr.ctor c ret p false s1 = .ok s2 ∧
      s2.handles ret = some p ∧
      (∀ a, a ≠ ret → s2.handles a = s1.handles a) ∧
      s2.heap = s.heap ∧
      (ret = this → s2 = s) := by
  refine ⟨{ heap := s.heap, handles := Function.update s.handles this (some nullptr) },
    { heap := s.heap, handles := Function.update
        (Function.update s.handles this (some nullptr)) ret (some p) },
    detach_eq s this p hthis, by simp, ?_, rfl, ?_, by simp, ?_, rfl, ?_⟩
  · intro a hne
    simp [Function.update, hne]
  · simp [ctor_eq, Except.map]
  · intro a hne
    simp [Function.update, hne]
  · intro e
    subst e
    exact state_eq s _ _ rfl (by simp [hthis])

/-- Witness for C9: detaching the only handle of object 1 and re-adopting it elsewhere. -/
theorem detach_adopt_roundtrip_witness :
    oneHandle 8 1 8 = some 1 ∧
    ∃ s1 s2, IntrusivePtr.detach 8 { heap := heapAt 1 1, handles := oneHandle 8 1 }
        = .ok (1, s1) ∧
      s1.handles 8 = some nullptr ∧
      (∀ a, a ≠ 8 → s1.handles a = oneHandle 8 1 a) ∧
      s1.heap = heapAt 1 1 ∧
      IntrusivePtr.ctor cfg32 9 1 false s1 = .ok s2 ∧
      s2.handles 9 = some 1 ∧
      (∀ a, a ≠ 9 → s2.handles a = s1.handles a) ∧
      s2.heap = heapAt 1 1 ∧
      ((9 : Addr) = 8 → s2 = { heap := heapAt 1 1, handles := oneHandle 8 1 }) :=
  ⟨by decide,
    detach_adopt_roundtrip cfg32 { heap := heapAt 1 1, handles := oneHandle 8 1 } 8 9 1
      (by decide)⟩

/-- C10 (as stated) fails at the top of the counter's range: on a 32-bit build, the copy form
of `staticCast` applied to a handle whose object has count `n = 2 ^ 32 - 1` leaves the count
at `0`, not at `n + 1`. -/
theorem staticCast_count_wraps :
    ∃ s1, staticCast cfg32 9 8
            { heap := heapAt 1 (2 ^ 32 - 1), handles := oneHandle 8 1 } = .ok s1 ∧
      s1.handles 9 = some 1 ∧ s1.handles 8 = some 1 ∧
      1 ≤ ((heapAt 1 (2 ^ 32 - 1)) 1).refCount ∧
      (s1.heap 1).refCount = 0 ∧
      (s1.heap 1).refCount ≠ ((heapAt 1 (2 ^ 32 - 1)) 1).refCount + 1 :=
  ⟨_, rfl, by decide, by decide, by decide, by decide, by decide⟩

/-- C10 (amended): for a handle `iptr` holding `p` and a result handle constructed at
`ret ≠ iptr`.
Copy forms (`staticCast`, `constCast`, `reinterpretCast`, implicit conversion): all four
return the same state; the result holds `p`, the source still holds `p`; if `p` is a live
object of count `n ≥ 1`, its count becomes `(n + 1) mod 2 ^ width`, which is `n + 1` when
`n + 1 < 2 ^ width`, and it is not deleted; if `p` is null the heap is unchanged.
Move forms (`staticCast`, `reinterpretCast`, implicit conversion): all three return the same
state; the result holds `p`, the source is null and the heap is unchanged. -/
theorem cast_spec (c : Cfg) (s : State) (ret iptr p : Addr)
    (hsrc : s.handles iptr = some p) (hret : ret ≠ iptr)
    (hobj : p ≠ nullptr → (s.heap p).alive = true ∧ 1 ≤ (s.heap p).refCount) :
    (∃ s1, staticCast c ret iptr s = .ok s1 ∧
        constCast c ret iptr s = .ok s1 ∧
        reinterpretCast c ret iptr s = .ok s1 ∧
        IntrusivePtr.convert c ret iptr s = .ok s1 ∧
        s1.handles ret = some p ∧ s1.handles iptr = some p ∧
        (∀ a, a ≠ ret → s1.handles a = s.handles a) ∧
        (p ≠ nullptr → Retained c s.heap s1.heap p ∧ (s1.heap p).alive = true) ∧
        (p = nullptr → s1.heap = s.heap) ∧
        (∀ a, a ≠ p → s1.heap a = s.heap a)) ∧
    (∃ s1, staticCastMove c ret iptr s = .ok s1 ∧
        reinterpretCastMove c ret iptr s = .ok s1 ∧
        IntrusivePtr.convertMove c ret iptr s = .ok s1 ∧
        s1.handles ret = some p ∧ s1.handles iptr = some nullptr ∧
        (∀ a, a ≠ ret → a ≠ iptr → s1.handles a = s.handles a) ∧
        s1.heap = s.heap) := by
  constructor
  · have hret1 : ∃ h1, intrusivePtrRetain c p s.heap = .ok h1 ∧
        (p ≠ nullptr → Retained c s.heap h1 p ∧ (h1 p).alive = true) ∧
        (p = nullptr → h1 = s.heap) ∧ (∀ a, a ≠ p → h1 a = s.heap a) := by
      by_cases hp0 : p = nullptr
      · subst hp0
        exact ⟨s.heap, retain_null c s.heap, fun x => absurd rfl x, fun _ => rfl,
          fun a _ => rfl⟩
      · refine ⟨_, retain_live c s.heap p hp0 (hobj hp0).1,
          fun _ => ⟨retained_of_retain_live c s.heap p, ?_⟩, fun x => absurd x hp0, ?_⟩
        · simpa using (hobj hp0).1
        · intro a hne
          simp [Function.update, hne]
    obtain ⟨h1, e1, r1, n1, f1⟩ := hret1
    have key : (do let q ← IntrusivePtr.get iptr s; IntrusivePtr.ctor c ret q true s) =
        .ok { heap := h1, handles := Function.update s.handles ret (some p) } := by
      simp only [IntrusivePtr.get, State.load, hsrc, Bind.bind, Except.bind, ctor_eq, if_true,
        e1, Except.map]
    refine ⟨{ heap := h1, handles := Function.update s.handles ret (some p) },
      key, key, key, ?_, by simp, ?_, ?_, r1, n1, f1⟩
    · simpa only [IntrusivePtr.get] using key
    · simp [Function.update, Ne.symm hret, hsrc]
    · intro a hne
      simp [Function.update, hne]
  · have key : (do let r ← IntrusivePtr.detach iptr s; IntrusivePtr.ctor c ret r.1 false r.2) =
        .ok { heap := s.heap,
              handles := Function.update
                (Function.update s.handles iptr (some nullptr)) ret (some p) } := by
      simp only [detach_eq s iptr p hsrc, Bind.bind, Except.bind, ctor_eq, Bool.false_eq_true,
        if_false, Except.map]
    refine ⟨_, key, key, key, by simp, ?_, ?_, rfl⟩
    · simp [Function.update, Ne.symm hret]
    · intro a h1 h2
      simp [Function.update, h1, h2]

/-- Witness for C10 (amended): casting the only handle of object 1 (count 1). -/
theorem cast_spec_witness :
    (oneHandle 8 1 8 = some 1 ∧ (9 : Addr) ≠ 8 ∧ ((heapAt 1 1) 1).alive = true ∧
      1 ≤ ((heapAt 1 1) 1).refCount) ∧
    ∃ s1, staticCast cfg32 9 8 { heap := heapAt 1 1, handles := oneHandle 8 1 } = .ok s1 ∧
        constCast cfg32 9 8 { heap := heapAt 1 1, handles := oneHandle 8 1 } = .ok s1 ∧
        reinterpretCast cfg32 9 8 { heap := heapAt 1 1, handles := oneHandle 8 1 } = .ok s1 ∧
        IntrusivePtr.convert cfg32 9 8 { heap := heapAt 1 1, handles := oneHandle 8 1 }
          = .ok s1 ∧
        s1.handles 9 = some 1 ∧ s1.handles 8 = some 1 ∧
        (∀ a, a ≠ 9 → s1.handles a = oneHandle 8 1 a) ∧
        ((1 : Addr) ≠ nullptr → Retained cfg32 (heapAt 1 1) s1.heap 1 ∧
          (s1.heap 1).alive = true) ∧
        ((1 : Addr) = nullptr → s1.heap = heapAt 1 1) ∧
        (∀ a, a ≠ 1 → s1.heap a = heapAt 1 1 a) :=
  ⟨by decide,
    (cast_spec cfg32 { heap := heapAt 1 1, handles := oneHandle 8 1 } 9 8 1
      (by decide) (by decide) (fun _ => by decide)).1⟩

/-- C12: double release is detected.  With assertions enabled, `release` on a non-null address
of a live object whose count is 0 does not return: it fails with the assertion
`0 < oldRefCount`.  The object is not destroyed: in no build does a release from count 0
return a heap in which the object is deleted.  `release` returns normally on the null address
and on every live object whose count is at least 1. -/
theorem double_release_detected (c : Cfg) (h : Heap) (p : Addr) :
    (c.asserts = true → p ≠ nullptr → (h p).alive = true → (h p).refCount = 0 →
      intrusivePtrRelease c p h = .error .assertion) ∧
    (p ≠ nullptr → (h p).alive = true → (h p).refCount = 0 →
      ∀ h2, intrusivePtrRelease c p h = .ok h2 →
        (h2 p).alive = true ∧ (h2 p).deletes = (h p).deletes) ∧
    (p = nullptr → intrusivePtrRelease c p h = .ok h) ∧
    (p ≠ nullptr → (h p).alive = true → 1 ≤ (h p).refCount →
      ∃ h2, intrusivePtrRelease c p h = .ok h2) := by
  refine ⟨fun hc hp ha h0 => ?_, fun hp ha h0 h2 e => ?_, fun e => ?_, fun hp ha h1 => ?_⟩
  · simp [intrusivePtrRelease, hp, ha, h0, hc]
  · by_cases hc : c.asserts = true
    · simp [intrusivePtrRelease, hp, ha, h0, hc] at e
    · simp only [intrusivePtrRelease, hp, ne_eq, not_false_eq_true, if_true, ha, h0, hc,
        false_and, if_false, show ¬ ((1 : Nat) = 0) by decide] at e
      have e2 := Except.ok.inj e
      rw [← e2]
      simp [ha]
  · subst e
    exact release_null c h
  · have hpos : 0 < (h p).refCount := h1
    simp only [intrusivePtrRelease, hp, ne_eq, not_false_eq_true, if_true, ha, hpos,
      not_true_eq_false, and_false, if_false]
    split_ifs
    · exact ⟨_, rfl⟩
    · exact ⟨_, rfl⟩

/-- Witness for C12: with assertions on, releasing a fresh object (count 0) at address 1. -/
theorem double_release_detected_witness :
    (cfg32.asserts = true ∧ (1 : Addr) ≠ nullptr ∧ ((heapAt 1 0) 1).alive = true ∧
      ((heapAt 1 0) 1).refCount = 0) ∧
    intrusivePtrRelease cfg32 1 (heapAt 1 0) = .error .assertion :=
  ⟨by decide,
    (double_release_detected cfg32 (heapAt 1 0) 1).1 (by decide) (by decide) (by decide)
      (by decide)⟩

/-- C20: with the assertion compiled out, `release` on a live object whose count is 0 returns,
leaves the count at `2 ^ width - 1` and does not delete the object; `retain` on a live object
whose count is `2 ^ width - 1` returns, leaves the count at 0 and does not delete the object.
No other object changes. -/
theorem underflow_wraps (c : Cfg) (h : Heap) (p : Addr) (hp : p ≠ nullptr)
    (ha : (h p).alive = true) :
    (c.asserts = false → (h p).refCount = 0 →
      ∃ h2, intrusivePtrRelease c p h = .ok h2 ∧
        (h2 p).refCount = 2 ^ c.width - 1 ∧ (h2 p).alive = true ∧
        (h2 p).deletes = (h p).deletes ∧ (∀ a, a ≠ p → h2 a = h a)) ∧
    ((h p).refCount = 2 ^ c.width - 1 →
      ∃ h2, intrusivePtrRetain c p h = .ok h2 ∧
        (h2 p).refCount = 0 ∧ (h2 p).alive = true ∧
        (h2 p).deletes = (h p).deletes ∧ (∀ a, a ≠ p → h2 a = h a)) := by
  have hpow : 0 < 2 ^ c.width := Nat.two_pow_pos _
  constructor
  · intro hc h0
    have hm : (0 + 2 ^ c.width - 1) % 2 ^ c.width = 2 ^ c.width - 1 := by
      rw [Nat.zero_add]
      exact Nat.mod_eq_of_lt (by omega)
    refine ⟨Function.update h p { h p with refCount := 2 ^ c.width - 1 }, ?_, by simp, by simp [ha],
      by simp, fun a hne => by simp [Function.update, hne]⟩
    simp only [intrusivePtrRelease, hp, ne_eq, not_false_eq_true, if_true, ha, h0, hc,
      Bool.false_eq_true, false_and, if_false, show ¬ ((1 : Nat) = 0) by decide, hm]
  · intro hmax
    have hm : ((h p).refCount + 1) % 2 ^ c.width = 0 := by
      have e : (h p).refCount + 1 = 2 ^ c.width := by omega
      rw [e, Nat.mod_self]
    refine ⟨_, retain_live c h p hp ha, by simp [hm], by simp [ha], by simp,
      fun a hne => by simp [Function.update, hne]⟩

/-- Witness for C20: a 64-bit build without assertions releasing a fresh object at address 1. -/
theorem underflow_wraps_witness :
    ((1 : Addr) ≠ nullptr ∧ ((heapAt 1 0) 1).alive = true ∧ cfg64.asserts = false ∧
      ((heapAt 1 0) 1).refCount = 0) ∧
    ∃ h2, intrusivePtrRelease cfg64 1 (heapAt 1 0) = .ok h2 ∧
        (h2 1).refCount = 2 ^ cfg64.width - 1 ∧ (h2 1).alive = true ∧
        (h2 1).deletes = ((heapAt 1 0) 1).deletes ∧ (∀ a, a ≠ 1 → h2 a = (heapAt 1 0) a) :=
  ⟨by decide,
    (underflow_wraps cfg64 (heapAt 1 0) 1 (by decide) (by decide)).1 (by decide) (by decide)⟩

/-- C13 at the failing input: with assertions enabled and a null handle at address 8,
`operator*` fails on its assertion, but `operator->` has no assertion and returns the null
pointer normally. -/
theorem arrow_null_unchecked :
    cfg32.asserts = true ∧
    IntrusivePtr.get 8 { heap := heapAt 1 1, handles := oneHandle 8 nullptr } = .ok nullptr ∧
    IntrusivePtr.deref cfg32 8 { heap := heapAt 1 1, handles := oneHandle 8 nullptr }
      = .error .assertion ∧
    IntrusivePtr.arrow 8 { heap := heapAt 1 1, handles := oneHandle 8 nullptr }
      = .ok nullptr :=
  ⟨rfl, rfl, rfl, rfl⟩

/-- C19 (as stated) fails at the top of the counter's range when assertions are compiled in:
on a 32-bit build, for a live object of count `2 ^ 32 - 1` the retain wraps the count to 0 and
the release then fails on the assertion `0 < oldRefCount`, so the pair does not return the
count to `n`. -/
theorem retain_release_asserts_at_max :
    ((heapAt 1 (2 ^ 32 - 1)) 1).alive = true ∧
    (∃ h1, intrusivePtrRetain cfg32 1 (heapAt 1 (2 ^ 32 - 1)) = .ok h1 ∧
      (h1 1).refCount = 0 ∧
      intrusivePtrRelease cfg32 1 h1 = .error .assertion) :=
  ⟨by decide, _, rfl, by decide, rfl⟩

/-- C19 (amended): for a live object with count `n` (a value of `std::size_t`, at least one
bit wide) such that `n < 2 ^ width - 1` or assertions are compiled out, a retain followed by a
release of its address both return, the count is `n` again, no other object changes, and the
object is deleted by the pair if and only if `n = 0`.  Hence a retaining handle constructed
over the object and then destroyed deletes it exactly when its count was 0 (a fresh object),
and leaves an object with `n ≥ 1` (held elsewhere) alive with count `n`. -/
theorem retain_release_pair (c : Cfg) (h : Heap) (p : Addr) (hp : p ≠ nullptr)
    (ha : (h p).alive = true) (hrep : (h p).refCount < 2 ^ c.width) (hw : 1 < 2 ^ c.width)
    (hfit : c.asserts = true → (h p).refCount + 1 < 2 ^ c.width) :
    ∃ h1 h2, intrusivePtrRetain c p h = .ok h1 ∧ intrusivePtrRelease c p h1 = .ok h2 ∧
      (h2 p).refCount = (h p).refCount ∧
      ((h2 p).alive = false ↔ (h p).refCount = 0) ∧
      (h2 p).deletes = (h p).deletes + (if (h p).refCount = 0 then 1 else 0) ∧
      (∀ a, a ≠ p → h2 a = h a) ∧
      (∀ (s : State) (this : Addr), s.heap = h →
        ∃ s1 s2, IntrusivePtr.ctor c this p true s = .ok s1 ∧ s1.handles this = some p ∧
          IntrusivePtr.dtor c this s1 = .ok s2 ∧ s2.heap = h2 ∧ s2.handles this = none) := by
  have hret := retain_live c h p hp ha
  -- the heap-level statement, from which the handle-level one follows
  have core : ∃ h1 h2, intrusivePtrRetain c p h = .ok h1 ∧ intrusivePtrRelease c p h1 = .ok h2 ∧
      (h2 p).refCount = (h p).refCount ∧
      ((h2 p).alive = false ↔ (h p).refCount = 0) ∧
      (h2 p).deletes = (h p).deletes + (if (h p).refCount = 0 then 1 else 0) ∧
      (∀ a, a ≠ p → h2 a = h a) := by
    by_cases h0 : (h p).refCount = 0
    · have hm : ((h p).refCount + 1) % 2 ^ c.width = 1 := by
        rw [h0]
        exact Nat.mod_eq_of_lt hw
      rw [hm] at hret
      have hrel := release_live c
        (Function.update h p { h p with refCount := 1 }) p hp (by simp [ha]) (by simp)
        (by simpa using hw)
      refine ⟨_, _, hret, hrel, by simp [h0], by simp [h0], by simp [h0], ?_⟩
      intro a hne
      simp [Function.update, hne]
    · have hpair := retain_release_self c h p hp ha (by omega) hrep hfit
      rw [hret] at hpair
      simp only [Except.bind] at hpair
      refine ⟨_, h, hret, hpair, rfl, ?_, by simp [h0], fun a _ => rfl⟩
      simp [h0, ha]
  obtain ⟨h1, h2, e1, e2, r1, r2, r3, r4⟩ := core
  refine ⟨h1, h2, e1, e2, r1, r2, r3, r4, ?_⟩
  intro s this hs
  subst hs
  refine ⟨{ heap := h1, handles := Function.update s.handles this (some p) },
    { heap := h2,
      handles := Function.update (Function.update s.handles this (some p)) this none },
    ?_, by simp, ?_, rfl, by simp⟩
  · simp only [ctor_eq, if_true, e1, Except.map]
  · rw [dtor_eq c _ this p (by simp)]
    simp only [e2, Except.map]

/-- Witness for C19 (amended): a retaining handle constructed over a fresh object at address 1
and destroyed again. -/
theorem retain_release_pair_witness :
    ((1 : Addr) ≠ nullptr ∧ ((heapAt 1 0) 1).alive = true ∧
      ((heapAt 1 0) 1).refCount < 2 ^ cfg32.width) ∧
    ∃ h1 h2, intrusivePtrRetain cfg32 1 (heapAt 1 0) = .ok h1 ∧
      intrusivePtrRelease cfg32 1 h1 = .ok h2 ∧
      (h2 1).refCount = ((heapAt 1 0) 1).refCount ∧
      ((h2 1).alive = false ↔ ((heapAt 1 0) 1).refCount = 0) ∧
      (h2 1).deletes = ((heapAt 1 0) 1).deletes + (if ((heapAt 1 0) 1).refCount = 0 then 1 else 0) ∧
      (∀ a, a ≠ 1 → h2 a = (heapAt 1 0) a) ∧
      (∀ (s : State) (this : Addr), s.heap = heapAt 1 0 →
        ∃ s1 s2, IntrusivePtr.ctor cfg32 this 1 true s = .ok s1 ∧ s1.handles this = some 1 ∧
          IntrusivePtr.dtor cfg32 this s1 = .ok s2 ∧ s2.heap = h2 ∧ s2.handles this = none) :=
  ⟨by decide,
    retain_release_pair cfg32 (heapAt 1 0) 1 (by decide) (by decide) (by decide) (by decide)
      (fun _ => by decide)⟩

/-- C15: the count of the mixin is never part of value copying.  A default-, copy- or
move-constructed `RefCounted` has count 0 whatever the count of the source, and the source is
unchanged; copy- and move-assignment leave the target (count `n`) and the source (count `m`)
exactly as they were. -/
theorem refCounted_copy_spec (src tgt : Obj) :
    RefCounted.getRefCount RefCounted.ctor = 0 ∧
    RefCounted.getRefCount (RefCounted.copyCtor src).1 = 0 ∧
    (RefCounted.copyCtor src).2 = src ∧
    RefCounted.getRefCount (RefCounted.moveCtor src).1 = 0 ∧
    (RefCounted.moveCtor src).2 = src ∧
    RefCounted.copyAssign tgt src = (tgt, src) ∧
    RefCounted.getRefCount (RefCounted.copyAssign tgt src).1 = RefCounted.getRefCount tgt ∧
    RefCounted.getRefCount (RefCounted.copyAssign tgt src).2 = RefCounted.getRefCount src ∧
    RefCounted.moveAssign tgt src = (tgt, src) ∧
    RefCounted.getRefCount (RefCounted.moveAssign tgt src).1 = RefCounted.getRefCount tgt ∧
    RefCounted.getRefCount (RefCounted.moveAssign tgt src).2 = RefCounted.getRefCount src ∧
    RefCounted.assign tgt src = tgt :=
  ⟨rfl, rfl, rfl, rfl, rfl, rfl, rfl, rfl, rfl, rfl, rfl, rfl⟩

/-- C16: comparisons follow addresses.  For live handles `a` (holding `va`) and `b` (holding
`vb`) and a raw address `p`, every comparison returns, and `a == b`, `a < b`, `a == p`,
`a < p`, `a > p` are the comparisons of `a.get()` with `b.get()` respectively `p`.  So handles
holding the same address are equal (in particular two handles just constructed from one
address), a null handle equals the null pointer and every null handle, and exactly one of
`a < b`, `a == b`, `b < a` is true. -/
theorem compare_spec (c : Cfg) (s : State) (a b va vb p : Addr)
    (ha : s.handles a = some va) (hb : s.handles b = some vb) :
    IntrusivePtr.get a s = .ok va ∧ IntrusivePtr.get b s = .ok vb ∧
    IntrusivePtr.eq a b s = .ok (decide (va = vb)) ∧
    IntrusivePtr.lt a b s = .ok (decide (va < vb)) ∧
    IntrusivePtr.lt b a s = .ok (decide (vb < va)) ∧
    IntrusivePtr.eqRaw a p s = .ok (decide (va = p)) ∧
    IntrusivePtr.ltRaw a p s = .ok (decide (va < p)) ∧
    IntrusivePtr.gtRaw a p s = .ok (decide (va > p)) ∧
    (va = vb → IntrusivePtr.eq a b s = .ok true) ∧
    (va = nullptr → IntrusivePtr.eqRaw a nullptr s = .ok true) ∧
    (va = nullptr → vb = nullptr → IntrusivePtr.eq a b s = .ok true) ∧
    ((decide (va < vb) = true ∧ decide (va = vb) = false ∧ decide (vb < va) = false) ∨
     (decide (va < vb) = false ∧ decide (va = vb) = true ∧ decide (vb < va) = false) ∨
     (decide (va < vb) = false ∧ decide (va = vb) = false ∧ decide (vb < va) = true)) ∧
    (∀ (s0 s1 : State) (q : Addr) (r1 r2 : Bool), a ≠ b →
      IntrusivePtr.ctor c a q r1 s0 = .ok s1 → IntrusivePtr.ctor c b q r2 s1 = .ok s →
      IntrusivePtr.eq a b s = .ok true) := by
  have e1 : IntrusivePtr.eq a b s = .ok (decide (va = vb)) := by
    simp [IntrusivePtr.eq, State.load, ha, hb, Bind.bind, Except.bind, Pure.pure, Except.pure]
  have e2 : IntrusivePtr.eqRaw a p s = .ok (decide (va = p)) := by
    simp [IntrusivePtr.eqRaw, State.load, ha, Bind.bind, Except.bind, Pure.pure, Except.pure]
  refine ⟨by simp [IntrusivePtr.get, State.load, ha], by simp [IntrusivePtr.get, State.load, hb],
    e1, ?_, ?_, e2, ?_, ?_, ?_, ?_, ?_, ?_, ?_⟩
  · simp [IntrusivePtr.lt, State.load, ha, hb, Bind.bind, Except.bind, Pure.pure, Except.pure]
  · simp [IntrusivePtr.lt, State.load, ha, hb, Bind.bind, Except.bind, Pure.pure, Except.pure]
  · simp [IntrusivePtr.ltRaw, State.load, ha, Bind.bind, Except.bind, Pure.pure, Except.pure]
  · simp [IntrusivePtr.gtRaw, State.load, ha, Bind.bind, Except.bind, Pure.pure, Except.pure]
  · intro h
    rw [e1]
    simp [h]
  · intro h
    simp [IntrusivePtr.eqRaw, State.load, ha, h, Bind.bind, Except.bind, Pure.pure, Except.pure]
  · intro h1 h2
    rw [e1]
    simp [h1, h2]
  · rcases Nat.lt_trichotomy va vb with h | h | h
    · refine Or.inl ⟨by simp [h], ?_, ?_⟩
      · simp only [decide_eq_false_iff_not]
        exact Nat.ne_of_lt h
      · simp only [decide_eq_false_iff_not]
        exact Nat.lt_asymm h
    · refine Or.inr (Or.inl ⟨?_, by simp [h], ?_⟩)
      · simp only [decide_eq_false_iff_not, h]
        exact Nat.lt_irrefl vb
      · simp only [decide_eq_false_iff_not, h]
        exact Nat.lt_irrefl vb
    · refine Or.inr (Or.inr ⟨?_, ?_, by simp [h]⟩)
      · simp only [decide_eq_false_iff_not]
        exact Nat.lt_asymm h
      · simp only [decide_eq_false_iff_not]
        exact fun e => Nat.ne_of_lt h e.symm
  · intro s0 s1 q r1 r2 hab h1 h2
    -- both constructors store `q`
    have k1 : s1.handles a = some q := by
      rw [ctor_eq] at h1
      cases hx : (if r1 = true then intrusivePtrRetain c q s0.heap else .ok s0.heap) with
      | error e =>
        rw [hx] at h1
        exact Except.noConfusion h1
      | ok h0 =>
        rw [hx] at h1
        rw [← Except.ok.inj h1]
        simp
    have k2 : s.handles a = some q ∧ s.handles b = some q := by
      rw [ctor_eq] at h2
      cases hx : (if r2 = true then intrusivePtrRetain c q s1.heap else .ok s1.heap) with
      | error e =>
        rw [hx] at h2
        exact Except.noConfusion h2
      | ok h0 =>
        rw [hx] at h2
        rw [← Except.ok.inj h2]
        simp [Function.update, hab, k1]
    have ea : va = q := Option.some.inj (ha.symm.trans k2.1)
    have eb : vb = q := Option.some.inj (hb.symm.trans k2.2)
    rw [e1]
    simp [ea, eb]

/-- Witness for C16: comparing a handle holding object 1 with a handle holding object 2. -/
theorem compare_spec_witness :
    (twoHandles 8 1 9 2 8 = some 1 ∧ twoHandles 8 1 9 2 9 = some 2) ∧
    IntrusivePtr.eq 8 9 { heap := heapAt2 1 1 2 1, handles := twoHandles 8 1 9 2 }
      = .ok (decide ((1 : Addr) = 2)) ∧
    IntrusivePtr.lt 8 9 { heap := heapAt2 1 1 2 1, handles := twoHandles 8 1 9 2 }
      = .ok (decide ((1 : Addr) < 2)) :=
  ⟨by decide,
    (compare_spec cfg32 { heap := heapAt2 1 1 2 1, handles := twoHandles 8 1 9 2 } 8 9 1 2 0
      (by decide) (by decide)).2.2.1,
    (compare_spec cfg32 { heap := heapAt2 1 1 2 1, handles := twoHandles 8 1 9 2 } 8 9 1 2 0
      (by decide) (by decide)).2.2.2.1⟩

/-- C17: `swap` exchanges addresses and nothing else.  For live handles `a` holding `p` and `b`
holding `q` (equal or not, null or not, the same handle or not), `a.swap(b)` returns; then `a`
holds `q`, `b` holds `p`, no other handle changed and the heap is untouched (no count changed,
nothing deleted); swapping again restores the original state. -/
theorem swap_spec (s : State) (a b p q : Addr)
    (ha : s.handles a = some p) (hb : s.handles b = some q) :
    ∃ s1, IntrusivePtr.swap a b s = .ok s1 ∧
      s1.handles a = some q ∧ s1.handles b = some p ∧
      (∀ x, x ≠ a → x ≠ b → s1.handles x = s.handles x) ∧
      s1.heap = s.heap ∧
      IntrusivePtr.swap a b s1 = .ok s := by
  have key : IntrusivePtr.swap a b s =
      .ok (State.mk s.heap (Function.update (Function.update s.handles a (some q)) b (some p))) := by
    simp [IntrusivePtr.swap, State.load, State.store, ha, hb, Bind.bind, Except.bind, Pure.pure,
      Except.pure]
  by_cases hab : a = b
  · subst hab
    have hpq : p = q := Option.some.inj (ha.symm.trans hb)
    subst hpq
    refine ⟨_, key, by simp, by simp, fun x h1 _ => by simp [Function.update, h1], rfl, ?_⟩
    simp only [IntrusivePtr.swap, State.load, State.store, Function.update_same, Bind.bind,
      Except.bind, Pure.pure, Except.pure, Function.update_idem]
    exact congrArg _ (state_eq s _ _ rfl (Function.update_eq_self_iff.mpr ha.symm))
  · refine ⟨_, key, by simp [Function.update, hab], by simp,
      fun x h1 h2 => by simp [Function.update, h1, h2], rfl, ?_⟩
    have hba : b ≠ a := fun e => hab e.symm
    simp only [IntrusivePtr.swap, State.load, State.store, Function.update_same,
      Function.update_noteq hab, Bind.bind, Except.bind, Pure.pure, Except.pure]
    refine congrArg _ (state_eq s _ _ rfl ?_)
    funext x
    by_cases xa : x = a
    · subst xa
      simp [Function.update, hab, ha]
    · by_cases xb : x = b
      · subst xb
        simp [Function.update, hb]
      · simp [Function.update, xa, xb]

/-- Witness for C17: swapping a handle holding object 1 with a null handle. -/
theorem swap_spec_witness :
    (twoHandles 8 1 9 0 8 = some 1 ∧ twoHandles 8 1 9 0 9 = some 0) ∧
    ∃ s1, IntrusivePtr.swap 8 9 { heap := heapAt 1 1, handles := twoHandles 8 1 9 0 } = .ok s1 ∧
      s1.handles 8 = some 0 ∧ s1.handles 9 = some 1 ∧
      (∀ x, x ≠ 8 → x ≠ 9 → s1.handles x = twoHandles 8 1 9 0 x) ∧
      s1.heap = heapAt 1 1 ∧
      IntrusivePtr.swap 8 9 s1 = .ok { heap := heapAt 1 1, handles := twoHandles 8 1 9 0 } :=
  ⟨by decide,
    swap_spec { heap := heapAt 1 1, handles := twoHandles 8 1 9 0 } 8 9 1 0
      (by decide) (by decide)⟩

/-- C18: move self-assignment is safe.  For a live handle `a` holding `p` (a live object of any
count, or null), `a = std::move(a)` returns and leaves the whole state unchanged: `a` still
holds `p`, no count changed, nothing was deleted.  It is `reset(a.detach(), false)`: the
detach nulls `a`, so the release acts on the null pointer, and `p` is stored back. -/
theorem move_self_assign_spec (c : Cfg) (s : State) (a p : Addr)
    (ha : s.handles a = some p) :
    IntrusivePtr.assignMove c a a s = .ok s ∧
    (∃ s1, IntrusivePtr.detach a s = .ok (p, s1) ∧ s1.handles a = some nullptr ∧
      s1.heap = s.heap ∧ IntrusivePtr.resetTo c a p false s1 = .ok s) := by
  have hres : IntrusivePtr.resetTo c a p false
      { heap := s.heap, handles := Function.update s.handles a (some nullptr) } = .ok s := by
    rw [resetTo_eq c _ a nullptr p false (by simp)]
    simp only [Bool.false_eq_true, if_false, Except.bind, release_null, Except.map,
      Function.update_idem]
    exact congrArg _ (state_eq s _ _ rfl (Function.update_eq_self_iff.mpr ha.symm))
  refine ⟨?_, _, detach_eq s a p ha, by simp, rfl, hres⟩
  simp only [IntrusivePtr.assignMove, detach_eq s a p ha, Bind.bind, Except.bind]
  exact hres

/-- Witness for C18: move self-assignment of the only handle of object 1 (count 1). -/
theorem move_self_assign_spec_witness :
    oneHandle 8 1 8 = some 1 ∧
    IntrusivePtr.assignMove cfg32 8 8 { heap := heapAt 1 1, handles := oneHandle 8 1 }
      = .ok { heap := heapAt 1 1, handles := oneHandle 8 1 } :=
  ⟨by decide,
    (move_self_assign_spec cfg32 { heap := heapAt 1 1, handles := oneHandle 8 1 } 8 1
      (by decide)).1⟩

/-- C11 at the failing input: a handle at address 8 holding the only reference (count 1) to a
live object at address 1 whose element type has a member `detach()` returning the object's own
address.  The move form of `constCast` calls that member of the pointee, not
`IntrusivePtr::detach`: the source handle is not nulled, so afterwards both the source and the
result hold the object while its count is still 1; destroying the result deletes the object
and leaves the source dangling (destroying it too is undefined behaviour).  On the same input
the move form of `staticCast` nulls the source and leaves exactly one owner. -/
theorem constCastMove_keeps_source :
    (∃ s1, constCastMove cfg32 elemDetachSelf 9 8
            { heap := heapAt 1 1, handles := oneHandle 8 1 } = .ok s1 ∧
      s1.handles 8 = some 1 ∧ s1.handles 9 = some 1 ∧
      (s1.heap 1).refCount = 1 ∧
      ∃ s2, IntrusivePtr.dtor cfg32 9 s1 = .ok s2 ∧
        (s2.heap 1).alive = false ∧ s2.handles 8 = some 1 ∧
        IntrusivePtr.dtor cfg32 8 s2 = .error .undefinedBehaviour) ∧
    (∃ s1, staticCastMove cfg32 9 8
            { heap := heapAt 1 1, handles := oneHandle 8 1 } = .ok s1 ∧
      s1.handles 8 = some nullptr ∧ s1.handles 9 = some 1 ∧
      (s1.heap 1).refCount = 1) :=
  ⟨⟨_, rfl, by decide, by decide, by decide, _, rfl, by decide, by decide, rfl⟩,
    ⟨_, rfl, by decide, by decide, by decide⟩⟩

/-- C14 (as stated) fails in two ways.  (1) A handle constructed over a fresh object with
`addRef = false` is a live non-null handle whose target has count 0.  (2) On a 32-bit build,
`2 ^ 32 - 1` rounds of retaining construction, `detach` and destruction leave the object with
count `2 ^ 32 - 1` and no handle; one more retaining construction wraps the count, so the new
handle's target has count 0. -/
theorem liveness_fails :
    (∃ s, run cfg32 [Op.ctor 8 1 false] (freshState 1) = .ok s ∧
      s.handles 8 = some 1 ∧ (s.heap 1).alive = true ∧ (s.heap 1).refCount = 0) ∧
    (∃ s, run cfg32 (leakLoop 1 (2 ^ 32 - 1) ++ [Op.ctor 8 1 true]) (freshState 1) = .ok s ∧
      s.handles 8 = some 1 ∧ (s.heap 1).alive = true ∧ (s.heap 1).refCount = 0) := by
  refine ⟨⟨_, rfl, by decide, by decide, by decide⟩, ?_⟩
  have e0 : freshState 1 = { heap := heapAt 1 0, handles := noHandles } := rfl
  have hlt : 0 + (2 ^ 32 - 1) < 2 ^ cfg32.width := by decide
  rw [e0, run_leakLoop cfg32 1 [Op.ctor 8 1 true] (by decide) (2 ^ 32 - 1) 0 hlt]
  exact ⟨_, rfl, by decide, by decide, by decide⟩

/-- C14 (amended): handle liveness.  Start from a state without handles in which every live
object has count 0 and run any finite sequence of permitted public handle operations (all
constructors, copy/move/raw assignment, both resets, `detach`, `swap`, destruction, the
implicit conversions, `staticCast` and `reinterpretCast` in both forms, `constCast` in its copy
form), where a retain is only performed on a count below the maximum and an address is only
adopted with `addRef = false` if a reference to it was detached earlier and not adopted since.
Then every prefix runs without fault, and in the state it reaches every live non-null handle's
target is a live object whose count is at least 1. -/
theorem handle_liveness (c : Cfg) (s0 : State) (ops : List Op)
    (hnone : ∀ a, s0.handles a = none)
    (hfresh : ∀ o, (s0.heap o).alive = true → (s0.heap o).refCount = 0)
    (hperm : permittedRun c (fun _ => 0) s0 ops = true) (k : Nat) :
    ∃ s, run c (ops.take k) s0 = .ok s ∧
      ∀ a p, s.handles a = some p → p ≠ nullptr →
        (s.heap p).alive = true ∧ 1 ≤ (s.heap p).refCount := by
  obtain ⟨s, loose, e, hB⟩ := run_backed c (ops.take k) (fun _ => 0) s0
    (backed_of_fresh c s0 hnone hfresh) (permittedRun_take c ops k _ s0 hperm)
  refine ⟨s, e, fun a p ha hp => ?_⟩
  have hpos := holders_pos c s p a (hB.located a p ha) ha
  rcases hB.counted p hp with ⟨h1, h2, _⟩ | ⟨_, h2, _⟩
  · exact ⟨h1, by omega⟩
  · omega

/-- Witness for C14 (amended): construct a handle over object 1, detach it, adopt the detached
reference into a second handle, copy that handle, and destroy two of the three handles. -/
theorem handle_liveness_witness :
    permittedRun cfg32 (fun _ => 0) (freshState 1) detachAdopt = true ∧
    ∃ s, run cfg32 (detachAdopt.take 6) (freshState 1) = .ok s ∧
      ∀ a p, s.handles a = some p → p ≠ nullptr →
        (s.heap p).alive = true ∧ 1 ≤ (s.heap p).refCount :=
  ⟨by decide,
    handle_liveness cfg32 (freshState 1) detachAdopt (fun _ => rfl)
      (fun o h => by
        by_cases e : o = 1
        · simp [freshState, e, RefCounted.ctor]
        · simp [freshState, e] at h)
      (by decide) 6⟩

end IntrusiveRc
